import Mathlib

/-!
Verification development for the sauron virtual-dom core.

The repository's visible source is `crates/sauron_vdom/src/patch.rs` (the
`Patch` enum and its `node_idx` accessor) and `src/html/events.rs` (the
browser-event mappers).  The tree model, the differ and the patch applier are
described by the specification but their source files are not part of the
visible set; they are modelled here from the specification's words and every
such definition is marked `Modelled from the spec:` in its doc comment.

The generic parameters of the Rust types (`T` the tag type, `ATT` the
attribute-name type, `EVENT`/`MSG` the event plumbing) are instantiated at
`String` / `String` / opaque numeric listener identifiers, which is the
standard shallow-embedding choice: none of the verified properties depend on
the genericity.
-/

/-- Modelled from the spec: the attribute value of the Tree Model (§3) is
"one of \x7bplain value, event listener\x7d"; listeners are opaque callback
bindings, represented by an identifier that the differ never inspects. -/
inductive AttrValue where
  | plain (v : String)
  | listener (cb : Nat)
deriving DecidableEq

/-- Modelled from the spec: an attribute is a name together with a value
(§3 `Attribute — \x7b name: ATT, value: one of \x7bplain value, event
listener\x7d \x7d`). -/
structure Attr where
  name : String
  value : AttrValue
deriving DecidableEq

/-- True when the attribute holds a plain (non-listener) value. -/
def Attr.isPlain (a : Attr) : Bool :=
  match a.value with
  | .plain _ => true
  | .listener _ => false

/-- True when the attribute holds an event-listener binding. -/
def Attr.isListener (a : Attr) : Bool :=
  match a.value with
  | .plain _ => false
  | .listener _ => true

/-- Modelled from the spec: the Tree Model node (§3 `Node`), a tagged variant:
an element with a tag, an ordered attribute sequence and ordered children, or
a text leaf. -/
inductive Node where
  | element (tag : String) (attrs : List Attr) (children : List Node)
  | text (content : String)

/-- Embedding of `Patch` from `crates/sauron_vdom/src/patch.rs` (lines 40-65),
with the type parameters instantiated (`T = String`, `ATT = String`,
`NodeIdx = usize ↦ Nat`, `Text ↦ String`).  The borrowed references `&'a _`
of the Rust enum are represented by values.  Note that `changeText` is the
only variant without a leading tag field, exactly as in the source. -/
inductive Patch where
  | appendChildren (tag : String) (nodeIdx : Nat) (children : List Node)
  | truncateChildren (tag : String) (nodeIdx : Nat) (len : Nat)
  | replace (tag : String) (nodeIdx : Nat) (node : Node)
  | addAttributes (tag : String) (nodeIdx : Nat) (attrs : List Attr)
  | removeAttributes (tag : String) (nodeIdx : Nat) (attrs : List String)
  | addEventListener (tag : String) (nodeIdx : Nat) (attrs : List Attr)
  | removeEventListener (tag : String) (nodeIdx : Nat) (attrs : List String)
  | changeText (nodeIdx : Nat) (content : String)

/-- Embedding of `Patch::node_idx` from `crates/sauron_vdom/src/patch.rs`
(lines 76-87): an eight-arm match returning the stored node index. -/
def Patch.node_idx : Patch → Nat
  | .appendChildren _ node_idx _ => node_idx
  | .truncateChildren _ node_idx _ => node_idx
  | .replace _ node_idx _ => node_idx
  | .addAttributes _ node_idx _ => node_idx
  | .removeAttributes _ node_idx _ => node_idx
  | .addEventListener _ node_idx _ => node_idx
  | .removeEventListener _ node_idx _ => node_idx
  | .changeText node_idx _ => node_idx

/-- The element tag stored in a patch, when the variant has one.  Seven of the
eight variants of `Patch` in `patch.rs` carry a leading `&'a T` tag field;
`ChangeText` does not. -/
def Patch.carriedTag : Patch → Option String
  | .appendChildren tag _ _ => some tag
  | .truncateChildren tag _ _ => some tag
  | .replace tag _ _ => some tag
  | .addAttributes tag _ _ => some tag
  | .removeAttributes tag _ _ => some tag
  | .addEventListener tag _ _ => some tag
  | .removeEventListener tag _ _ => some tag
  | .changeText _ _ => none

/-! ### Event translation (`src/html/events.rs`)

The mappers in `events.rs` consume `crate::Event`, a wrapper around a
`web_sys::Event` (the opaque platform event).  The shallow embedding models
the platform event by the facts the mappers query: the dynamic class of the
underlying value (`dyn_ref` casts), the event type string (`type_()`) and the
event target (`target()`).  A Rust `panic!` / `.expect(msg)` is represented
by `Except.error msg`; a function that cannot panic keeps a plain return
type. -/

/-- Modelled from the spec: the typed coordinate payload of a `MouseEvent`
(`sauron_vdom::event::Coordinate`, absent from the visible source); the
fields are exactly those populated by `mouse_event_mapper` in
`events.rs` lines 30-41. -/
structure Coordinate where
  client_x : Int
  client_y : Int
  movement_x : Int
  movement_y : Int
  offset_x : Int
  offset_y : Int
  screen_x : Int
  screen_y : Int
  x : Int
  y : Int
deriving DecidableEq

/-- Modelled from the spec: the modifier-key payload
(`sauron_vdom::event::Modifier`, absent from the visible source); fields as
populated in `events.rs` lines 42-47 and 77-82. -/
structure Modifier where
  alt_key : Bool
  ctrl_key : Bool
  meta_key : Bool
  shift_key : Bool
deriving DecidableEq

/-- Modelled from the spec: `sauron_vdom::event::MouseButton` (absent from
the visible source).  The variants named by `mouse_event_mapper` are `Left`,
`Middle`, `WheelUp`, `WheelDown`; a `Right` variant exists for the secondary
button but is never produced by the mapper.  Its `Default` is `Left`
(`events.rs` line 54: "defaults to left"). -/
inductive MouseButton where
  | left
  | middle
  | right
  | wheelUp
  | wheelDown
deriving DecidableEq

instance : Inhabited MouseButton := ⟨MouseButton.left⟩

/-- Modelled from the spec: `sauron_vdom::event::MouseEvent` (absent from the
visible source); fields as populated in `events.rs` lines 67-72.  The Rust
field `r#type` is rendered `type_`. -/
structure MouseEvent where
  type_ : String
  coordinate : Coordinate
  modifier : Modifier
  buttons : MouseButton
deriving DecidableEq

/-- Modelled from the spec: `sauron_vdom::event::KeyEvent` (absent from the
visible source); fields as populated in `events.rs` lines 83-88.  The Rust
field `repeat` is rendered `repeat_`; `location` is a `u32`. -/
structure KeyEvent where
  key : String
  modifier : Modifier
  repeat_ : Bool
  location : Nat
deriving DecidableEq

/-- Modelled from the spec: `KeyEvent::default()` as used by
`keyboard_event_mapper` (`events.rs` line 92) — Rust's derived `Default`:
empty string, all modifier flags false, not repeating, location 0. -/
instance : Inhabited KeyEvent :=
  ⟨{ key := "", modifier := ⟨false, false, false, false⟩, repeat_ := false,
     location := 0 }⟩

/-- Modelled from the spec: `sauron_vdom::event::InputEvent` (absent from the
visible source); the single field populated in `events.rs` lines 102-107. -/
structure InputEvent where
  value : String
deriving DecidableEq

/-- The data a `web_sys::MouseEvent` supplies to `mouse_event_mapper`. -/
structure MouseData where
  button : Int
  client_x : Int
  client_y : Int
  movement_x : Int
  movement_y : Int
  offset_x : Int
  offset_y : Int
  screen_x : Int
  screen_y : Int
  x : Int
  y : Int
  alt_key : Bool
  ctrl_key : Bool
  meta_key : Bool
  shift_key : Bool
deriving DecidableEq

/-- The data a `web_sys::KeyboardEvent` supplies to `keyboard_event_mapper`. -/
structure KeyData where
  key : String
  alt_key : Bool
  ctrl_key : Bool
  meta_key : Bool
  shift_key : Bool
  repeat_ : Bool
  location : Nat
deriving DecidableEq

/-- The dynamic class of the JavaScript value wrapped by `crate::Event`,
as distinguished by the `dyn_ref` casts in `events.rs`: a
`web_sys::MouseEvent`, a `web_sys::KeyboardEvent`, or anything else. -/
inductive JsEventValue where
  | mouseEvent (m : MouseData)
  | keyboardEvent (k : KeyData)
  | otherValue
deriving DecidableEq

/-- The dynamic class of an event target, as distinguished by the `dyn_ref`
casts in `input_event_mapper`: an `HtmlInputElement` carrying a value, an
`HtmlTextAreaElement` carrying a value, or some other element. -/
inductive EventTarget where
  | htmlInputElement (value : String)
  | htmlTextAreaElement (value : String)
  | otherTarget
deriving DecidableEq

/-- The opaque platform event (`crate::Event` wrapping `web_sys::Event`),
modelled by the observations the mappers make of it. -/
structure Event where
  value : JsEventValue
  eventType : String
  target : Option EventTarget
deriving DecidableEq

/-- Embedding of `mouse_event_mapper` (`events.rs` lines 26-73).  The
`dyn_ref().expect("Unable to cast to mouse event")` and the
`panic!("unhandled event type: ...")` arm are modelled as `Except.error`. -/
def mouse_event_mapper (event : Event) : Except String MouseEvent :=
  match event.value with
  | .keyboardEvent _ => .error "Unable to cast to mouse event"
  | .otherValue => .error "Unable to cast to mouse event"
  | .mouseEvent mouse =>
    let coordinate : Coordinate :=
      { client_x := mouse.client_x
        client_y := mouse.client_y
        movement_x := mouse.movement_x
        movement_y := mouse.movement_y
        offset_x := mouse.offset_x
        offset_y := mouse.offset_y
        screen_x := mouse.screen_x
        screen_y := mouse.screen_y
        x := mouse.x
        y := mouse.y }
    let modifier : Modifier :=
      { alt_key := mouse.alt_key
        ctrl_key := mouse.ctrl_key
        meta_key := mouse.meta_key
        shift_key := mouse.shift_key }
    let buttons : MouseButton :=
      match mouse.button with
      | 0 => MouseButton.left
      | 1 => MouseButton.middle
      | 2 => MouseButton.left
      | 3 => MouseButton.wheelUp
      | 4 => MouseButton.wheelDown
      | _ => default
    match event.eventType with
    | "click" => .ok { type_ := "click", coordinate, modifier, buttons }
    | "mouseup" => .ok { type_ := "mouseup", coordinate, modifier, buttons }
    | "mousedown" => .ok { type_ := "mousedown", coordinate, modifier, buttons }
    | "mousemove" => .ok { type_ := "mousemove", coordinate, modifier, buttons }
    | "dblclick" => .ok { type_ := "dblclick", coordinate, modifier, buttons }
    | e => .error ("unhandled event type: " ++ e)

/-- Embedding of `keyboard_event_mapper` (`events.rs` lines 75-94): when the
underlying value is a `KeyboardEvent` the typed fields are extracted; for any
other value the function silently returns `KeyEvent::default()` (the
`else` branch marked `FIXME` in the source).  The function is total — it
cannot panic. -/
def keyboard_event_mapper (event : Event) : KeyEvent :=
  match event.value with
  | .keyboardEvent key_event =>
    { key := key_event.key
      modifier :=
        { alt_key := key_event.alt_key
          ctrl_key := key_event.ctrl_key
          meta_key := key_event.meta_key
          shift_key := key_event.shift_key }
      repeat_ := key_event.repeat_
      location := key_event.location }
  | _ => default

/-- Embedding of `input_event_mapper` (`events.rs` lines 96-116).  The two
`.expect(..)` calls — on a missing target and on a target that is neither an
`HtmlInputElement` nor an `HtmlTextAreaElement` — are modelled as
`Except.error`. -/
def input_event_mapper (event : Event) : Except String InputEvent :=
  match event.target with
  | none => .error "Unable to get event target"
  | some target =>
    let input_event : Option InputEvent :=
      match target with
      | .htmlInputElement input => some { value := input }
      | .htmlTextAreaElement textarea => some { value := textarea }
      | .otherTarget => none
    match input_event with
    | some ev => .ok ev
    | none =>
      .error "Expecting an input event from input element or textarea element"

/-! ### Tree Differ and Patch Applier (modelled from the spec)

The diff/apply engine (the spec's Tree Differ §4.3, Attribute Differ §4.2 and
Patch Applier §4.4) is not part of the visible source; the definitions below
are modelled from the specification's words.  Trees are addressed by
`NodeIdx`, the depth-first pre-order position (§3), and patch emission for a
node follows the fixed order of §4.3. -/

mutual
/-- Number of nodes of a tree: the node itself plus all descendants.  A
subtree of `size n` occupies the `NodeIdx` interval `[idx, idx + n)` in a
depth-first pre-order indexing starting at `idx`. -/
def size : Node → Nat
  | .text _ => 1
  | .element _ _ cs => 1 + sizeList cs

/-- Total number of nodes of a forest of sibling trees. -/
def sizeList : List Node → Nat
  | [] => 0
  | c :: cs => size c + sizeList cs
end

/-- The tag of a root node; a text leaf has no tag and yields the empty
string (only element targets ever have their tag inspected). -/
def rootTag : Node → String
  | .element tag _ _ => tag
  | .text _ => ""

/-- First plain (non-listener) attribute value stored under `n`, scanning in
order and ignoring listener attributes (the spec's §4.2 tracks listener
attributes separately from plain-value attributes). -/
def findPlainVal : List Attr → String → Option String
  | [], _ => none
  | a :: rest, n =>
    match a.value with
    | .plain v => if a.name == n then some v else findPlainVal rest n
    | .listener _ => findPlainVal rest n

/-- True when some listener attribute named `n` is present. -/
def hasListenerNamed (attrs : List Attr) (n : String) : Bool :=
  attrs.any (fun a => a.isListener && a.name == n)

/-- Modelled from the spec: the Attribute Differ's `to_add` set (§4.2) —
plain attributes present (by name) in new but absent in old, or present in
both but with a changed plain value; the new value wins and the whole
attribute is replaced. -/
def attrsToAdd (old new : List Attr) : List Attr :=
  new.filter (fun a =>
    match a.value with
    | .plain v => findPlainVal old a.name ≠ some v
    | .listener _ => false)

/-- Modelled from the spec: the Attribute Differ's `to_remove` set (§4.2) —
names of plain attributes present in old but absent in new. -/
def attrsToRemove (old new : List Attr) : List String :=
  (old.filter (fun a => a.isPlain && (findPlainVal new a.name).isNone)).map
    (fun a => a.name)

/-- Modelled from the spec: listener attributes to add (§4.2/§3) — listeners
are compared by name presence only (callbacks are opaque), so the listeners
of new whose name carries no listener in old are added. -/
def listenersToAdd (old new : List Attr) : List Attr :=
  new.filter (fun a => a.isListener && !(hasListenerNamed old a.name))

/-- Modelled from the spec: listener names to remove (§4.2) — names carrying
a listener in old but none in new; the remove fragment names only the
attribute name. -/
def listenersToRemove (old new : List Attr) : List String :=
  ((old.filter (fun a => a.isListener && !(hasListenerNamed new a.name))).map
    (fun a => a.name))

/-- Modelled from the spec: the attribute/listener patches the Tree Differ
emits for one equal-tag element pair (§4.3): `AddAttributes`,
`RemoveAttributes`, `AddEventListener`, `RemoveEventListener`, in that fixed
order, each only when its set is non-empty. -/
def attrPatches (tag : String) (a1 a2 : List Attr) (idx : Nat) : List Patch :=
  (if (attrsToAdd a1 a2).isEmpty then []
   else [.addAttributes tag idx (attrsToAdd a1 a2)]) ++
  (if (attrsToRemove a1 a2).isEmpty then []
   else [.removeAttributes tag idx (attrsToRemove a1 a2)]) ++
  (if (listenersToAdd a1 a2).isEmpty then []
   else [.addEventListener tag idx (listenersToAdd a1 a2)]) ++
  (if (listenersToRemove a1 a2).isEmpty then []
   else [.removeEventListener tag idx (listenersToRemove a1 a2)])

/-- Modelled from the spec: the children-count patch the Tree Differ emits
for one equal-tag element pair (§4.3): one `AppendChildren` carrying the
surplus new children when new has more, one `TruncateChildren` to the new
length when new has fewer, nothing when the counts agree. -/
def structPatch (tag : String) (c1 c2 : List Node) (idx : Nat) : List Patch :=
  if c1.length < c2.length then [.appendChildren tag idx (c2.drop c1.length)]
  else if c2.length < c1.length then [.truncateChildren tag idx c2.length]
  else []

mutual
/-- Modelled from the spec: the Tree Differ (§4.3) comparing an old and a new
node known to occupy pre-order index `idx`.  Tag difference (element vs text,
or differing element tag) emits a terminal `Replace`; equal-tag elements emit
the four attribute/listener patches (each only when its set is non-empty),
then recurse into positionally matched children, then emit the
children-count patch (`AppendChildren` / `TruncateChildren`). -/
def diffAt (old new : Node) (idx : Nat) : List Patch :=
  match old, new with
  | .text o, .text n => if o == n then [] else [.changeText idx n]
  | .element t1 a1 c1, .element t2 a2 c2 =>
    if t1 == t2 then
      attrPatches t1 a1 a2 idx ++
      diffChildren c1 c2 (idx + 1) ++
      structPatch t1 c1 c2 idx
    else [.replace t1 idx (.element t2 a2 c2)]
  | o, n => [.replace (rootTag o) idx n]

/-- Modelled from the spec: positional recursion over children (§4.3) — for
each shared position recurse, advancing the pre-order index by the size of
the old child's subtree (patches address the old tree's indexing). -/
def diffChildren (os ns : List Node) (idx : Nat) : List Patch :=
  match os, ns with
  | [], _ => []
  | _, [] => []
  | o :: os', n :: ns' => diffAt o n idx ++ diffChildren os' ns' (idx + size o)
end

/-- Modelled from the spec: `diff(old_tree, new_tree)` (§6), the sole entry
point — the root occupies index 0. -/
def diff (old new : Node) : List Patch :=
  diffAt old new 0

/-- The patches of a list addressed to node index `idx`, in original order. -/
def psAt (ps : List Patch) (idx : Nat) : List Patch :=
  ps.filter (fun p => p.node_idx == idx)

/-- The replacement payload of a patch, when it is a `Replace`. -/
def replacePayload : Patch → Option Node
  | .replace _ _ n => some n
  | _ => none

/-- The replacement node carried by the first `Replace` patch of a list. -/
def findReplacement (ps : List Patch) : Option Node :=
  ps.findSome? replacePayload

/-- The text carried by the first `ChangeText` patch of a list. -/
def findNewText (ps : List Patch) : Option String :=
  ps.findSome? (fun p =>
    match p with
    | .changeText _ s => some s
    | _ => none)

/-- Modelled from the spec: effect of one attribute/listener patch on a
node's attribute collection (§4.4, the renderer's set/unset attribute and
bind/unbind listener primitives).  `AddAttributes` replaces whole plain
attributes by name and appends the new ones; `RemoveAttributes` unsets plain
attributes by name; the listener patches do the same for listener
attributes.  Other patch variants do not touch attributes. -/
def applyAttrPatch (attrs : List Attr) (p : Patch) : List Attr :=
  match p with
  | .addAttributes _ _ ta =>
    attrs.filter (fun b => !(b.isPlain && ta.any (fun a => a.name == b.name)))
      ++ ta
  | .removeAttributes _ _ ns =>
    attrs.filter (fun b => !(b.isPlain && ns.contains b.name))
  | .addEventListener _ _ la =>
    attrs.filter (fun b => !(b.isListener && la.any (fun a => a.name == b.name)))
      ++ la
  | .removeEventListener _ _ ns =>
    attrs.filter (fun b => !(b.isListener && ns.contains b.name))
  | _ => attrs

/-- The combined effect of the (up to four) attribute/listener patches the
differ emits for an equal-tag element pair, applied in emission order to the
old attribute collection. -/
def updateAttrs (a1 a2 : List Attr) : List Attr :=
  applyAttrPatch
    (applyAttrPatch
      (applyAttrPatch
        (applyAttrPatch a1 (.addAttributes "" 0 (attrsToAdd a1 a2)))
        (.removeAttributes "" 0 (attrsToRemove a1 a2)))
      (.addEventListener "" 0 (listenersToAdd a1 a2)))
    (.removeEventListener "" 0 (listenersToRemove a1 a2))

/-- Modelled from the spec: effect of one children-count patch on a node's
child list (§4.4) — `AppendChildren` appends the surplus new subtrees,
`TruncateChildren len` removes all children besides the first `len`.  Other
patch variants do not touch the child list. -/
def applyStructPatch (children : List Node) (p : Patch) : List Node :=
  match p with
  | .appendChildren _ _ cs => children ++ cs
  | .truncateChildren _ _ len => children.take len
  | _ => children

mutual
/-- Modelled from the spec: the Patch Applier (§4.4) — visit the live tree's
nodes as if re-running the Indexer and, at the node of pre-order index
`idx`, perform the patches addressed to `idx` in their original order.  A
`Replace` is terminal for the subtree; on a text leaf a `ChangeText` sets the
text; on an element the attribute patches update the attribute collection,
the children are visited recursively at their old-tree indices, and the
children-count patch then appends or truncates. -/
def applyAt (ps : List Patch) (node : Node) (idx : Nat) : Node :=
  match findReplacement (psAt ps idx) with
  | some n => n
  | none =>
    match node with
    | .text s =>
      match findNewText (psAt ps idx) with
      | some t => .text t
      | none => .text s
    | .element tag attrs children =>
      .element tag
        ((psAt ps idx).foldl applyAttrPatch attrs)
        ((psAt ps idx).foldl applyStructPatch
          (applyChildren ps children (idx + 1)))

/-- Modelled from the spec: visiting a forest of siblings, the first sibling
occupying index `idx` and each next sibling's subtree beginning after the
prior sibling's entire subtree (§3). -/
def applyChildren (ps : List Patch) (cs : List Node) (idx : Nat) : List Node :=
  match cs with
  | [] => []
  | c :: rest => applyAt ps c idx :: applyChildren ps rest (idx + size c)
end

/-- Modelled from the spec: applying an ordered patch list to a live tree
(§4.4); the root occupies index 0. -/
def applyPatches (ps : List Patch) (root : Node) : Node :=
  applyAt ps root 0

/-- Attribute collections agree observably (§8 Round-trip: "same
attributes, listeners-presence"): at every name mentioned by either side the
plain value and the listener presence coincide. -/
def attrsObservEq (x y : List Attr) : Bool :=
  (x ++ y).all (fun a =>
    findPlainVal x a.name == findPlainVal y a.name &&
    hasListenerNamed x a.name == hasListenerNamed y a.name)

mutual
/-- Observable equality of trees (§8 Round-trip): same tags, same plain
attribute values, same listener presence, same text, same child counts,
recursively. -/
def observEq : Node → Node → Bool
  | .text s, .text t => s == t
  | .element t1 a1 c1, .element t2 a2 c2 =>
    t1 == t2 && attrsObservEq a1 a2 && observEqList c1 c2
  | _, _ => false

/-- Observable equality of forests: same length and pointwise observable
equality. -/
def observEqList : List Node → List Node → Bool
  | [], [] => true
  | x :: xs, y :: ys => observEq x y && observEqList xs ys
  | _, _ => false
end

/-- True when a list of strings has no duplicate entry. -/
def nodupBool : List String → Bool
  | [] => true
  | n :: ns => !(ns.contains n) && nodupBool ns

mutual
/-- Well-formedness of a tree: the data model's merge invariant (§3 —
"after merge, attribute names are unique within a node"), recursively. -/
def wf : Node → Bool
  | .text _ => true
  | .element _ attrs cs => nodupBool (attrs.map (fun a => a.name)) && wfList cs

/-- Well-formedness of every tree of a forest. -/
def wfList : List Node → Bool
  | [] => true
  | c :: cs => wf c && wfList cs
end

/-- A concrete platform event whose underlying value is a mouse event with
button code 2, fired as a click. -/
def sampleMouseData : MouseData :=
  ⟨2, 0, 0, 0, 0, 0, 0, 0, 0, 0, 0, false, false, false, false⟩

/-- The wrapped platform event for `sampleMouseData`. -/
def sampleMouseClickEvent : Event := ⟨.mouseEvent sampleMouseData, "click", none⟩

/-- The typed mouse event `mouse_event_mapper` produces for
`sampleMouseClickEvent`. -/
def sampleMouseResult : MouseEvent :=
  ⟨"click", ⟨0, 0, 0, 0, 0, 0, 0, 0, 0, 0⟩, ⟨false, false, false, false⟩, .left⟩

/-- A concrete platform event whose underlying value is a keyboard event. -/
def sampleKeyData : KeyData := ⟨"a", false, false, false, true, true, 3⟩

/-- The wrapped platform event for `sampleKeyData`. -/
def sampleKeyboardEvent : Event := ⟨.keyboardEvent sampleKeyData, "keyup", none⟩

/-- A well-formed sample tree containing a plain attribute and a listener. -/
def sampleTree : Node :=
  .element "div" [⟨"id", .plain "app"⟩, ⟨"click", .listener 7⟩]
    [.text "hi", .element "span" [⟨"x", .plain "1"⟩] []]

/-- A second well-formed sample tree of a different shape: one attribute
value changed, the listener replaced by another, one child replaced and one
truncated. -/
def sampleTreeB : Node :=
  .element "div" [⟨"id", .plain "root"⟩, ⟨"keyup", .listener 9⟩]
    [.text "bye"]

/-! ### Claims about the Patch model (`patch.rs`) -/

/-- C1 (counterexample): it is not the case that every `Patch` value carries
the element tag of its target — the `ChangeText` variant carries no tag
field, so the concrete patch `ChangeText(0, "x")` refutes the universal
claim. -/
theorem changeText_carries_no_tag :
    ¬ (∀ p : Patch, (Patch.carriedTag p).isSome = true) := fun h => by
  simpa [Patch.carriedTag] using h (Patch.changeText 0 "x")

/-- C1 (amended): seven of the eight `Patch` variants carry the element tag
of the target node in addition to the target's `NodeIdx` and the
variant-specific payload; the `ChangeText` variant carries only the `NodeIdx`
and the replacement text. -/
theorem carriedTag_total_except_changeText :
    ∀ p : Patch,
      (∃ i s, p = Patch.changeText i s ∧ Patch.carriedTag p = none) ∨
      (∃ t, Patch.carriedTag p = some t) := by
  intro p
  cases p with
  | appendChildren t i cs => exact Or.inr ⟨t, rfl⟩
  | truncateChildren t i len => exact Or.inr ⟨t, rfl⟩
  | replace t i nd => exact Or.inr ⟨t, rfl⟩
  | addAttributes t i al => exact Or.inr ⟨t, rfl⟩
  | removeAttributes t i ns => exact Or.inr ⟨t, rfl⟩
  | addEventListener t i al => exact Or.inr ⟨t, rfl⟩
  | removeEventListener t i ns => exact Or.inr ⟨t, rfl⟩
  | changeText i s => exact Or.inl ⟨i, s, rfl, rfl⟩

/-- C3: for every one of the eight variants, the accessor `node_idx` returns
exactly the `NodeIdx` stored in the patch. -/
theorem node_idx_eq_stored :
    ∀ (t : String) (i : Nat) (cs : List Node) (len : Nat) (nd : Node)
      (al : List Attr) (ns : List String) (s : String),
      (Patch.appendChildren t i cs).node_idx = i ∧
      (Patch.truncateChildren t i len).node_idx = i ∧
      (Patch.replace t i nd).node_idx = i ∧
      (Patch.addAttributes t i al).node_idx = i ∧
      (Patch.removeAttributes t i ns).node_idx = i ∧
      (Patch.addEventListener t i al).node_idx = i ∧
      (Patch.removeEventListener t i ns).node_idx = i ∧
      (Patch.changeText i s).node_idx = i :=
  fun _ _ _ _ _ _ _ _ => ⟨rfl, rfl, rfl, rfl, rfl, rfl, rfl, rfl⟩

/-- C4: every `Patch` value is one of exactly eight variants — children to
append, a truncate length, a replacement node, attributes to add, attribute
names to remove, listeners to add, listener names to remove, or a
replacement text — and each carries a `NodeIdx` target returned by
`node_idx`. -/
theorem patch_eight_variants :
    ∀ p : Patch,
      (∃ t i cs, p = Patch.appendChildren t i cs ∧ p.node_idx = i) ∨
      (∃ t i len, p = Patch.truncateChildren t i len ∧ p.node_idx = i) ∨
      (∃ t i nd, p = Patch.replace t i nd ∧ p.node_idx = i) ∨
      (∃ t i al, p = Patch.addAttributes t i al ∧ p.node_idx = i) ∨
      (∃ t i ns, p = Patch.removeAttributes t i ns ∧ p.node_idx = i) ∨
      (∃ t i al, p = Patch.addEventListener t i al ∧ p.node_idx = i) ∨
      (∃ t i ns, p = Patch.removeEventListener t i ns ∧ p.node_idx = i) ∨
      (∃ i s, p = Patch.changeText i s ∧ p.node_idx = i) := by
  intro p
  cases p with
  | appendChildren t i cs => exact Or.inl ⟨t, i, cs, rfl, rfl⟩
  | truncateChildren t i len => exact Or.inr (Or.inl ⟨t, i, len, rfl, rfl⟩)
  | replace t i nd => exact Or.inr (Or.inr (Or.inl ⟨t, i, nd, rfl, rfl⟩))
  | addAttributes t i al =>
    exact Or.inr (Or.inr (Or.inr (Or.inl ⟨t, i, al, rfl, rfl⟩)))
  | removeAttributes t i ns =>
    exact Or.inr (Or.inr (Or.inr (Or.inr (Or.inl ⟨t, i, ns, rfl, rfl⟩))))
  | addEventListener t i al =>
    exact Or.inr (Or.inr (Or.inr (Or.inr (Or.inr (Or.inl ⟨t, i, al, rfl, rfl⟩)))))
  | removeEventListener t i ns =>
    exact Or.inr (Or.inr (Or.inr (Or.inr (Or.inr (Or.inr (Or.inl ⟨t, i, ns, rfl, rfl⟩))))))
  | changeText i s =>
    exact Or.inr (Or.inr (Or.inr (Or.inr (Or.inr (Or.inr (Or.inr ⟨i, s, rfl, rfl⟩))))))

/-! ### Claims about the event mappers (`events.rs`) -/

/-- C2 (counterexample): a platform event that cannot be coerced does crash
the mapper — `mouse_event_mapper` on a non-mouse platform event, and
`input_event_mapper` on an event whose target is neither an input nor a
textarea element, both abort with a panic (modelled as `Except.error`)
instead of returning a value. -/
theorem mapper_aborts_on_uncoercible_cex :
    mouse_event_mapper ⟨.otherValue, "click", none⟩ =
      .error "Unable to cast to mouse event" ∧
    input_event_mapper ⟨.otherValue, "input", some .otherTarget⟩ =
      .error "Expecting an input event from input element or textarea element" :=
  ⟨rfl, rfl⟩

/-- C2 (amended): when the event-translation collaborator cannot coerce the
opaque platform event into the expected typed shape, the registered mouse
and input mappers do not return a translation-failure value — they abort
with a panic: `mouse_event_mapper` panics whenever the underlying value is
not a `MouseEvent`, and `input_event_mapper` panics whenever the target is
absent or is neither an `HtmlInputElement` nor an `HtmlTextAreaElement`. -/
theorem mapper_error_on_uncoercible :
    (∀ e : Event, (∀ m, e.value ≠ .mouseEvent m) →
      ∃ msg, mouse_event_mapper e = .error msg) ∧
    (∀ e : Event, (∀ v, e.target ≠ some (.htmlInputElement v)) →
      (∀ v, e.target ≠ some (.htmlTextAreaElement v)) →
      ∃ msg, input_event_mapper e = .error msg) := by
  constructor
  · intro e h
    match hv : e.value with
    | .mouseEvent m => exact absurd hv (h m)
    | .keyboardEvent k =>
      exact ⟨"Unable to cast to mouse event", by simp [mouse_event_mapper, hv]⟩
    | .otherValue =>
      exact ⟨"Unable to cast to mouse event", by simp [mouse_event_mapper, hv]⟩
  · intro e h1 h2
    match ht : e.target with
    | none => exact ⟨"Unable to get event target", by simp [input_event_mapper, ht]⟩
    | some (.htmlInputElement v) => exact absurd ht (h1 v)
    | some (.htmlTextAreaElement v) => exact absurd ht (h2 v)
    | some .otherTarget =>
      exact ⟨"Expecting an input event from input element or textarea element",
        by simp [input_event_mapper, ht]⟩

/-- C2 (witness): the amended theorem applied to concrete uncoercible
events. -/
theorem mapper_error_on_uncoercible_witness :
    (∃ msg, mouse_event_mapper ⟨.otherValue, "click", none⟩ = .error msg) ∧
    (∃ msg, input_event_mapper ⟨.otherValue, "input", some .otherTarget⟩ =
      .error msg) :=
  ⟨mapper_error_on_uncoercible.1 ⟨.otherValue, "click", none⟩
      (fun _ h => by simp at h),
    mapper_error_on_uncoercible.2 ⟨.otherValue, "input", some .otherTarget⟩
      (fun _ h => by simp at h) (fun _ h => by simp at h)⟩

/-- C9: in `mouse_event_mapper` the platform button code determines the
`MouseButton` of the produced typed event as 0 ↦ Left, 1 ↦ Middle,
2 ↦ Left, 3 ↦ WheelUp, 4 ↦ WheelDown, and every other code ↦ the default
button; in particular the secondary (right) button, code 2, is reported as
Left. -/
theorem mouse_button_mapping :
    ∀ (e : Event) (m : MouseData) (ev : MouseEvent),
      e.value = .mouseEvent m → mouse_event_mapper e = .ok ev →
      ((m.button = 0 → ev.buttons = MouseButton.left) ∧
       (m.button = 1 → ev.buttons = MouseButton.middle) ∧
       (m.button = 2 → ev.buttons = MouseButton.left) ∧
       (m.button = 3 → ev.buttons = MouseButton.wheelUp) ∧
       (m.button = 4 → ev.buttons = MouseButton.wheelDown) ∧
       (m.button ≠ 0 → m.button ≠ 1 → m.button ≠ 2 → m.button ≠ 3 →
         m.button ≠ 4 → ev.buttons = default)) := by
  intro e m ev hv hok
  have hbu : ev.buttons =
      (match m.button with
        | 0 => MouseButton.left
        | 1 => MouseButton.middle
        | 2 => MouseButton.left
        | 3 => MouseButton.wheelUp
        | 4 => MouseButton.wheelDown
        | _ => default) := by
    rw [mouse_event_mapper, hv] at hok
    dsimp only at hok
    split at hok
    · cases hok; rfl
    · cases hok; rfl
    · cases hok; rfl
    · cases hok; rfl
    · cases hok; rfl
    · cases hok
  refine ⟨fun h0 => ?_, fun h0 => ?_, fun h0 => ?_, fun h0 => ?_, fun h0 => ?_,
    fun h0 h1 h2 h3 h4 => ?_⟩
  · rw [hbu, h0]; decide
  · rw [hbu, h0]; decide
  · rw [hbu, h0]; decide
  · rw [hbu, h0]; decide
  · rw [hbu, h0]; decide
  · rw [hbu]
    split <;> simp_all

/-- C9 (witness): the mapping theorem applied to a concrete click event with
button code 2, which is reported as the left button. -/
theorem mouse_button_mapping_witness :
    sampleMouseResult.buttons = MouseButton.left :=
  (mouse_button_mapping sampleMouseClickEvent sampleMouseData sampleMouseResult
      rfl rfl).2.2.1 rfl

/-- C10: `keyboard_event_mapper` returns the silent fallback
`KeyEvent::default()` for every platform event whose underlying value is not
a `KeyboardEvent` — it neither signals an error nor aborts — and for a
`KeyboardEvent` it returns the event's key, modifiers, repeat flag and
location. -/
theorem keyboard_mapper_fallback_and_success :
    (∀ e : Event, (∀ k, e.value ≠ .keyboardEvent k) →
      keyboard_event_mapper e = default) ∧
    (∀ (e : Event) (k : KeyData), e.value = .keyboardEvent k →
      keyboard_event_mapper e =
        { key := k.key,
          modifier := ⟨k.alt_key, k.ctrl_key, k.meta_key, k.shift_key⟩,
          repeat_ := k.repeat_, location := k.location }) := by
  constructor
  · intro e h
    match hv : e.value with
    | .keyboardEvent k => exact absurd hv (h k)
    | .mouseEvent m => rw [keyboard_event_mapper, hv]
    | .otherValue => rw [keyboard_event_mapper, hv]
  · intro e k hv
    rw [keyboard_event_mapper, hv]

/-- C10 (witness): the theorem applied to a concrete mouse-valued event
(fallback branch) and a concrete keyboard-valued event (success branch). -/
theorem keyboard_mapper_fallback_and_success_witness :
    keyboard_event_mapper sampleMouseClickEvent = default ∧
    keyboard_event_mapper sampleKeyboardEvent =
      { key := "a", modifier := ⟨false, false, false, true⟩, repeat_ := true,
        location := 3 } :=
  ⟨keyboard_mapper_fallback_and_success.1 sampleMouseClickEvent
      (fun _ h => by simp [sampleMouseClickEvent] at h),
    keyboard_mapper_fallback_and_success.2 sampleKeyboardEvent sampleKeyData rfl⟩

/-! ### Claims about the Tree Differ (modelled from the spec) -/

/-- The executable duplicate check agrees with `List.Nodup`. -/
theorem nodupBool_iff (ns : List String) : nodupBool ns = true ↔ ns.Nodup := by
  induction ns with
  | nil => simp [nodupBool]
  | cons n ns ih => simp [nodupBool, List.nodup_cons, ih]

/-- Scanning for a plain value under the name of a plain member finds
something. -/
theorem fpv_isSome_of_mem (attrs : List Attr) (x : Attr) (v : String)
    (hx : x ∈ attrs) (hv : x.value = .plain v) :
    (findPlainVal attrs x.name).isSome = true := by
  induction attrs with
  | nil => cases hx
  | cons a rest ih =>
    rw [findPlainVal]
    rcases List.mem_cons.1 hx with h | h
    · subst h
      rw [hv]
      simp
    · match ha : a.value with
      | .plain w =>
        by_cases hn : (a.name == x.name) = true
        · simp [hn]
        · simp only [hn, if_false]
          exact ih h
      | .listener cb => exact ih h

/-- With unique attribute names, scanning for the plain value under a plain
member's name recovers that member's own value. -/
theorem fpv_self (attrs : List Attr)
    (hnd : (attrs.map (fun a => a.name)).Nodup) :
    ∀ x ∈ attrs, ∀ v, x.value = .plain v →
      findPlainVal attrs x.name = some v := by
  induction attrs with
  | nil => intro x hx; cases hx
  | cons a rest ih =>
    rw [List.map_cons, List.nodup_cons] at hnd
    intro x hx v hv
    rcases List.mem_cons.1 hx with h | h
    · subst h
      rw [findPlainVal, hv]
      simp
    · have hne : ¬((a.name == x.name) = true) := by
        intro hc
        exact hnd.1 (eq_of_beq hc ▸ List.mem_map.2 ⟨x, h, rfl⟩)
      rw [findPlainVal]
      match ha : a.value with
      | .plain w =>
        simp only [hne, if_false]
        exact ih hnd.2 x h v hv
      | .listener cb => exact ih hnd.2 x h v hv

/-- A listener member witnesses listener presence under its own name. -/
theorem hasListener_of_mem (attrs : List Attr) (x : Attr)
    (hx : x ∈ attrs) (hv : x.isListener = true) :
    hasListenerNamed attrs x.name = true :=
  List.any_eq_true.2 ⟨x, hx, by simp [hv]⟩

/-- The Attribute Differ emits nothing when a well-formed attribute
collection is compared with itself. -/
theorem attr_differ_self (attrs : List Attr)
    (hnd : (attrs.map (fun a => a.name)).Nodup) :
    attrsToAdd attrs attrs = [] ∧ attrsToRemove attrs attrs = [] ∧
    listenersToAdd attrs attrs = [] ∧ listenersToRemove attrs attrs = [] := by
  refine ⟨?_, ?_, ?_, ?_⟩
  · rw [attrsToAdd]
    refine List.filter_eq_nil_iff.2 ?_
    intro a ha
    match hv : a.value with
    | .plain v => simp [fpv_self attrs hnd a ha v hv]
    | .listener cb => simp
  · rw [attrsToRemove]
    have : attrs.filter (fun a => a.isPlain && (findPlainVal attrs a.name).isNone) = [] := by
      refine List.filter_eq_nil_iff.2 ?_
      intro a ha
      match hv : a.value with
      | .plain v =>
        simp [Option.isNone_iff_eq_none,
          Option.isSome_iff_ne_none.1 (fpv_isSome_of_mem attrs a v ha hv)]
      | .listener cb => simp [Attr.isPlain, hv]
    rw [this, List.map_nil]
  · rw [listenersToAdd]
    refine List.filter_eq_nil_iff.2 ?_
    intro a ha
    match hv : a.value with
    | .plain v => simp [Attr.isListener, hv]
    | .listener cb =>
      simp [hasListener_of_mem attrs a ha (by simp [Attr.isListener, hv])]
  · rw [listenersToRemove]
    have : attrs.filter (fun a => a.isListener && !(hasListenerNamed attrs a.name)) = [] := by
      refine List.filter_eq_nil_iff.2 ?_
      intro a ha
      match hv : a.value with
      | .plain v => simp [Attr.isListener, hv]
      | .listener cb =>
        simp [hasListener_of_mem attrs a ha (by simp [Attr.isListener, hv])]
    rw [this, List.map_nil]

/-- Every tree has at least one node. -/
theorem size_pos : ∀ T : Node, 1 ≤ size T := by
  intro T
  cases T with
  | element t a cs => rw [size]; omega
  | text s => rw [size]

/-- A tree of a forest is no larger than the forest. -/
theorem size_le_sizeList : ∀ (cs : List Node) (c : Node), c ∈ cs →
    size c ≤ sizeList cs := by
  intro cs
  induction cs with
  | nil => intro c hc; cases hc
  | cons d rest ih =>
    intro c hc
    rw [sizeList]
    rcases List.mem_cons.1 hc with h | h
    · subst h; omega
    · have := ih c h; omega

/-- Members of a well-formed forest are well-formed. -/
theorem wfList_mem : ∀ (cs : List Node), wfList cs = true →
    ∀ c ∈ cs, wf c = true := by
  intro cs
  induction cs with
  | nil => intro _ c hc; cases hc
  | cons d rest ih =>
    intro hw c hc
    rw [wfList, Bool.and_eq_true] at hw
    rcases List.mem_cons.1 hc with h | h
    · exact h ▸ hw.1
    · exact ih hw.2 c h

/-- Diffing a well-formed tree against itself yields no patches, at every
index (size-fuelled induction). -/
theorem diffAt_self_aux : ∀ (fuel : Nat) (T : Node), size T ≤ fuel →
    wf T = true → ∀ idx, diffAt T T idx = [] := by
  intro fuel
  induction fuel with
  | zero => intro T hs; exact absurd hs (by have := size_pos T; omega)
  | succ n ih =>
    intro T hs hw idx
    match T with
    | .text s => rw [diffAt]; simp
    | .element t a cs =>
      rw [wf, Bool.and_eq_true] at hw
      have hnd := (nodupBool_iff _).1 hw.1
      obtain ⟨h1, h2, h3, h4⟩ := attr_differ_self a hnd
      have hsz : sizeList cs ≤ n := by rw [size] at hs; omega
      have hchild : ∀ (ds : List Node), (∀ c ∈ ds, wf c = true ∧ size c ≤ n) →
          ∀ k, diffChildren ds ds k = [] := by
        intro ds
        induction ds with
        | nil => intro _ k; rw [diffChildren]
        | cons c rest ihc =>
          intro hmem k
          rw [diffChildren,
            ih c (hmem c (List.mem_cons_self c rest)).2
              (hmem c (List.mem_cons_self c rest)).1 k,
            ihc (fun d hd => hmem d (List.mem_cons_of_mem c hd)) (k + size c),
            List.nil_append]
      have hwl : ∀ c ∈ cs, wf c = true ∧ size c ≤ n := fun c hc =>
        ⟨wfList_mem cs hw.2 c hc, le_trans (size_le_sizeList cs c hc) hsz⟩
      rw [diffAt]
      simp only [beq_self_eq_true, if_true, hchild cs hwl (idx + 1)]
      simp [attrPatches, structPatch, h1, h2, h3, h4]

/-- C6: for every (well-formed) tree `T`, diffing the same tree value against
itself yields the empty patch sequence — `diff(T, T) = []`. -/
theorem diff_self_eq_nil : ∀ T : Node, wf T = true → diff T T = [] := by
  intro T h
  rw [diff]
  exact diffAt_self_aux (size T) T le_rfl h 0

/-- C6 (witness): the no-op diff theorem applied to a concrete well-formed
tree with attributes, a listener and children. -/
theorem diff_self_eq_nil_witness : diff sampleTree sampleTree = [] :=
  diff_self_eq_nil sampleTree (by decide)

/-- C7: whenever the root tags of two element trees differ, the diff is
exactly one `Replace` patch addressed to `NodeIdx` 0 whose payload is the
whole new tree — no patches are emitted for any descendant of either root,
regardless of the children. -/
theorem diff_tag_change_single_replace :
    ∀ (t1 : String) (a1 : List Attr) (c1 : List Node)
      (t2 : String) (a2 : List Attr) (c2 : List Node),
      t1 ≠ t2 →
      diff (.element t1 a1 c1) (.element t2 a2 c2) =
        [.replace t1 0 (.element t2 a2 c2)] := by
  intro t1 a1 c1 t2 a2 c2 h
  rw [diff, diffAt]
  simp [h]

/-- C7 (witness): the tag-change theorem applied to concrete trees with
large, entirely different child lists. -/
theorem diff_tag_change_single_replace_witness :
    diff (.element "div" [⟨"id", .plain "a"⟩] [.text "x", .text "y"])
        (.element "span" [] [.element "p" [] [.text "deep"]]) =
      [.replace "div" 0 (.element "span" [] [.element "p" [] [.text "deep"]])] :=
  diff_tag_change_single_replace "div" [⟨"id", .plain "a"⟩] [.text "x", .text "y"]
    "span" [] [.element "p" [] [.text "deep"]] (by decide)

/-- C8: the concrete scenario — diffing `Element("div", [], [Text("hi")])`
against `Element("div", [], [Text("bye")])` yields exactly
`[ChangeText(1, "bye")]`: the root has `NodeIdx` 0 and the text child
`NodeIdx` 1. -/
theorem diff_changeText_scenario :
    diff (.element "div" [] [.text "hi"]) (.element "div" [] [.text "bye"]) =
      [.changeText 1 "bye"] := rfl

/-! ### Round-trip: the patch list decomposed by target index -/

/-- Filtering by index distributes over concatenation. -/
theorem psAt_append (l1 l2 : List Patch) (j : Nat) :
    psAt (l1 ++ l2) j = psAt l1 j ++ psAt l2 j := by
  simp [psAt, List.filter_append]

/-- A list none of whose patches target `j` contributes nothing at `j`. -/
theorem psAt_eq_nil (ps : List Patch) (j : Nat)
    (h : ∀ p ∈ ps, p.node_idx ≠ j) : psAt ps j = [] := by
  refine List.filter_eq_nil_iff.2 ?_
  intro p hp
  simpa using h p hp

/-- A list all of whose patches target `j` is returned whole at `j`. -/
theorem psAt_eq_self (ps : List Patch) (j : Nat)
    (h : ∀ p ∈ ps, p.node_idx = j) : psAt ps j = ps :=
  List.filter_eq_self.2 fun p hp => by simp [h p hp]

/-- Every attribute/listener patch emitted for a node targets that node, does
not touch child lists, and is not a `Replace`. -/
theorem attrPatches_mem (tag : String) (x y : List Attr) (idx : Nat)
    (p : Patch) (hp : p ∈ attrPatches tag x y idx) :
    p.node_idx = idx ∧ (∀ cs : List Node, applyStructPatch cs p = cs) ∧
      replacePayload p = none := by
  rw [attrPatches] at hp
  rcases List.mem_append.1 hp with hp | hp
  · rcases List.mem_append.1 hp with hp | hp
    · rcases List.mem_append.1 hp with hp | hp
      · split at hp
        · cases hp
        · rw [List.mem_singleton] at hp
          subst hp
          exact ⟨rfl, fun cs => rfl, rfl⟩
      · split at hp
        · cases hp
        · rw [List.mem_singleton] at hp
          subst hp
          exact ⟨rfl, fun cs => rfl, rfl⟩
    · split at hp
      · cases hp
      · rw [List.mem_singleton] at hp
        subst hp
        exact ⟨rfl, fun cs => rfl, rfl⟩
  · split at hp
    · cases hp
    · rw [List.mem_singleton] at hp
      subst hp
      exact ⟨rfl, fun cs => rfl, rfl⟩

/-- Every children-count patch emitted for a node targets that node, does not
touch attribute collections, and is not a `Replace`. -/
theorem structPatch_mem (tag : String) (c1 c2 : List Node) (idx : Nat)
    (p : Patch) (hp : p ∈ structPatch tag c1 c2 idx) :
    p.node_idx = idx ∧ (∀ x : List Attr, applyAttrPatch x p = x) ∧
      replacePayload p = none := by
  rw [structPatch] at hp
  split at hp
  · rw [List.mem_singleton] at hp
    subst hp
    exact ⟨rfl, fun x => rfl, rfl⟩
  · split at hp
    · rw [List.mem_singleton] at hp
      subst hp
      exact ⟨rfl, fun x => rfl, rfl⟩
    · cases hp

/-- Bounds for the patches of a child forest, assuming bounds for each old
child. -/
theorem diffChildren_bounds_of (os : List Node)
    (H : ∀ o ∈ os, ∀ (nn : Node) (i : Nat) (p : Patch), p ∈ diffAt o nn i →
      i ≤ p.node_idx ∧ p.node_idx < i + size o) :
    ∀ (ns : List Node) (k : Nat) (p : Patch), p ∈ diffChildren os ns k →
      k ≤ p.node_idx ∧ p.node_idx < k + sizeList os := by
  induction os with
  | nil =>
    intro ns k p hp
    rw [diffChildren] at hp
    cases hp
  | cons o os' ih =>
    intro ns k p hp
    match ns with
    | [] =>
      have hnil : diffChildren (o :: os') [] k = [] := rfl
      rw [hnil] at hp
      cases hp
    | n :: ns' =>
      rw [diffChildren] at hp
      rw [sizeList]
      rcases List.mem_append.1 hp with hp | hp
      · have := H o (List.mem_cons_self o os') n k p hp
        omega
      · have := ih (fun d hd => H d (List.mem_cons_of_mem o hd))
          ns' (k + size o) p hp
        omega

/-- Every patch of `diffAt old new idx` targets an index inside the old
subtree's interval `[idx, idx + size old)` (size-fuelled induction). -/
theorem diffAt_bounds_aux : ∀ (fuel : Nat) (old : Node), size old ≤ fuel →
    ∀ (nn : Node) (idx : Nat) (p : Patch), p ∈ diffAt old nn idx →
      idx ≤ p.node_idx ∧ p.node_idx < idx + size old := by
  intro fuel
  induction fuel with
  | zero => intro old hs; exact absurd hs (by have := size_pos old; omega)
  | succ n ih =>
    intro old hs nn idx p hp
    have h1 := size_pos old
    match old, nn with
    | .text o, .text t =>
      rw [diffAt] at hp
      split at hp
      · cases hp
      · rw [List.mem_singleton] at hp
        subst hp
        refine ⟨?_, ?_⟩ <;> simp only [Patch.node_idx, size] <;> omega
    | .text o, .element t2 a2 c2 =>
      have heq : diffAt (Node.text o) (Node.element t2 a2 c2) idx =
          [Patch.replace (rootTag (Node.text o)) idx (Node.element t2 a2 c2)] :=
        rfl
      rw [heq] at hp
      rw [List.mem_singleton] at hp
      subst hp
      refine ⟨?_, ?_⟩ <;> simp only [Patch.node_idx, size] <;> omega
    | .element t1 a1 c1, .text t =>
      have heq : diffAt (Node.element t1 a1 c1) (Node.text t) idx =
          [Patch.replace (rootTag (Node.element t1 a1 c1)) idx (Node.text t)] :=
        rfl
      rw [heq] at hp
      rw [List.mem_singleton] at hp
      subst hp
      refine ⟨?_, ?_⟩ <;> simp only [Patch.node_idx, size] <;> omega
    | .element t1 a1 c1, .element t2 a2 c2 =>
      rw [diffAt] at hp
      split at hp
      · have hsz : sizeList c1 ≤ n := by rw [size] at hs; omega
        have hsize : size (Node.element t1 a1 c1) = 1 + sizeList c1 := rfl
        rcases List.mem_append.1 hp with hp | hp
        · rcases List.mem_append.1 hp with hp | hp
          · have := (attrPatches_mem t1 a1 a2 idx p hp).1
            omega
          · have := diffChildren_bounds_of c1
              (fun o ho nn2 i q hq => ih o
                (le_trans (size_le_sizeList c1 o ho) hsz) nn2 i q hq)
              c2 (idx + 1) p hp
            omega
        · have := (structPatch_mem t1 c1 c2 idx p hp).1
          omega
      · rw [List.mem_singleton] at hp
        subst hp
        refine ⟨?_, ?_⟩ <;> simp only [Patch.node_idx, size] <;> omega

/-- Bounds for the patches of a single diff. -/
theorem diffAt_bounds (old nn : Node) (idx : Nat) (p : Patch)
    (hp : p ∈ diffAt old nn idx) :
    idx ≤ p.node_idx ∧ p.node_idx < idx + size old :=
  diffAt_bounds_aux (size old) old le_rfl nn idx p hp

/-- Outside the old subtree's interval a diff contributes no patches. -/
theorem psAt_diffAt_outside (old nn : Node) (idx j : Nat)
    (hj : j < idx ∨ idx + size old ≤ j) :
    psAt (diffAt old nn idx) j = [] := by
  refine psAt_eq_nil _ _ ?_
  intro p hp
  have := diffAt_bounds old nn idx p hp
  omega

/-! ### Attribute lookup toolbox -/

/-- A plain hit in the left part of a concatenation wins. -/
theorem fpv_append_some (l1 l2 : List Attr) (n : String) (v : String)
    (h : findPlainVal l1 n = some v) :
    findPlainVal (l1 ++ l2) n = some v := by
  induction l1 with
  | nil => cases h
  | cons a rest ih =>
    cases hv : a.value with
    | plain w =>
      simp only [findPlainVal, hv] at h
      rw [List.cons_append]
      simp only [findPlainVal, hv]
      by_cases hn : (a.name == n) = true
      · rw [if_pos hn] at h ⊢; exact h
      · rw [if_neg hn] at h ⊢; exact ih h
    | listener cb =>
      simp only [findPlainVal, hv] at h
      rw [List.cons_append]
      simp only [findPlainVal, hv]
      exact ih h

/-- With no plain hit on the left, lookup falls through a concatenation. -/
theorem fpv_append_none (l1 l2 : List Attr) (n : String)
    (h : findPlainVal l1 n = none) :
    findPlainVal (l1 ++ l2) n = findPlainVal l2 n := by
  induction l1 with
  | nil => rfl
  | cons a rest ih =>
    cases hv : a.value with
    | plain w =>
      simp only [findPlainVal, hv] at h
      rw [List.cons_append]
      simp only [findPlainVal, hv]
      by_cases hn : (a.name == n) = true
      · rw [if_pos hn] at h; cases h
      · rw [if_neg hn] at h ⊢; exact ih h
    | listener cb =>
      simp only [findPlainVal, hv] at h
      rw [List.cons_append]
      simp only [findPlainVal, hv]
      exact ih h

/-- A filter that keeps every plain attribute named `n` preserves the plain
lookup under `n`. -/
theorem fpv_filter_keep (l : List Attr) (q : Attr → Bool) (n : String)
    (h : ∀ a ∈ l, ∀ v, a.value = .plain v → a.name = n → q a = true) :
    findPlainVal (l.filter q) n = findPlainVal l n := by
  induction l with
  | nil => rfl
  | cons a rest ih =>
    have ih' := ih (fun b hb => h b (List.mem_cons_of_mem a hb))
    by_cases hq : q a = true
    · rw [List.filter_cons_of_pos hq]
      cases hv : a.value with
      | plain w =>
        simp only [findPlainVal, hv]
        by_cases hn : (a.name == n) = true
        · rw [if_pos hn, if_pos hn]
        · rw [if_neg hn, if_neg hn]; exact ih'
      | listener cb =>
        simp only [findPlainVal, hv]
        exact ih'
    · rw [List.filter_cons_of_neg (by simpa using hq)]
      cases hv : a.value with
      | plain w =>
        have hn : ¬((a.name == n) = true) := by
          intro hc
          exact hq (h a (List.mem_cons_self a rest) w hv (eq_of_beq hc))
        simp only [findPlainVal, hv]
        rw [if_neg hn]
        exact ih'
      | listener cb =>
        simp only [findPlainVal, hv]
        exact ih'

/-- A filter that drops every plain attribute named `n` leaves no plain
lookup under `n`. -/
theorem fpv_filter_drop (l : List Attr) (q : Attr → Bool) (n : String)
    (h : ∀ a ∈ l, ∀ v, a.value = .plain v → a.name = n → q a = false) :
    findPlainVal (l.filter q) n = none := by
  induction l with
  | nil => rfl
  | cons a rest ih =>
    have ih' := ih (fun b hb => h b (List.mem_cons_of_mem a hb))
    by_cases hq : q a = true
    · rw [List.filter_cons_of_pos hq]
      cases hv : a.value with
      | plain w =>
        have hn : ¬((a.name == n) = true) := by
          intro hc
          have := h a (List.mem_cons_self a rest) w hv (eq_of_beq hc)
          rw [hq] at this
          cases this
        simp only [findPlainVal, hv]
        rw [if_neg hn]
        exact ih'
      | listener cb =>
        simp only [findPlainVal, hv]
        exact ih'
    · rw [List.filter_cons_of_neg (by simpa using hq)]
      exact ih'

/-- The plain lookup misses exactly when no plain attribute is named `n`. -/
theorem fpv_eq_none_iff (l : List Attr) (n : String) :
    findPlainVal l n = none ↔
      ∀ a ∈ l, ∀ v, a.value = .plain v → a.name ≠ n := by
  induction l with
  | nil => simp [findPlainVal]
  | cons a rest ih =>
    cases hv : a.value with
    | plain w =>
      by_cases hn : (a.name == n) = true
      · simp only [findPlainVal, hv]
        rw [if_pos hn]
        constructor
        · intro h; cases h
        · intro h
          exact absurd (eq_of_beq hn) (h a (List.mem_cons_self a rest) w hv)
      · simp only [findPlainVal, hv]
        rw [if_neg hn, ih]
        constructor
        · intro h b hb v' hv'
          rcases List.mem_cons.1 hb with hb | hb
          · subst hb
            rw [hv] at hv'
            cases hv'
            intro hc
            exact hn (beq_iff_eq.2 hc)
          · exact h b hb v' hv'
        · intro h b hb v' hv'
          exact h b (List.mem_cons_of_mem a hb) v' hv'
    | listener cb =>
      simp only [findPlainVal, hv]
      rw [ih]
      constructor
      · intro h b hb v' hv'
        rcases List.mem_cons.1 hb with hb | hb
        · subst hb
          rw [hv] at hv'
          cases hv'
        · exact h b hb v' hv'
      · intro h b hb v' hv'
        exact h b (List.mem_cons_of_mem a hb) v' hv'

/-- A plain hit comes from a member. -/
theorem fpv_mem_of_some (l : List Attr) (n v : String)
    (h : findPlainVal l n = some v) :
    ∃ x ∈ l, x.name = n ∧ x.value = .plain v := by
  induction l with
  | nil => cases h
  | cons a rest ih =>
    cases hv : a.value with
    | plain w =>
      simp only [findPlainVal, hv] at h
      by_cases hn : (a.name == n) = true
      · rw [if_pos hn] at h
        cases h
        exact ⟨a, List.mem_cons_self a rest, eq_of_beq hn, hv⟩
      · rw [if_neg hn] at h
        obtain ⟨x, hx, hxn, hxv⟩ := ih h
        exact ⟨x, List.mem_cons_of_mem a hx, hxn, hxv⟩
    | listener cb =>
      simp only [findPlainVal, hv] at h
      obtain ⟨x, hx, hxn, hxv⟩ := ih h
      exact ⟨x, List.mem_cons_of_mem a hx, hxn, hxv⟩

/-- A list of listeners has no plain lookup hits. -/
theorem fpv_of_all_listener (l : List Attr) (n : String)
    (h : ∀ a ∈ l, a.isListener = true) : findPlainVal l n = none := by
  refine (fpv_eq_none_iff l n).2 ?_
  intro a ha v hv
  have := h a ha
  rw [Attr.isListener, hv] at this
  cases this

/-- Listener presence distributes over concatenation. -/
theorem hln_append (l1 l2 : List Attr) (n : String) :
    hasListenerNamed (l1 ++ l2) n =
      (hasListenerNamed l1 n || hasListenerNamed l2 n) := by
  simp [hasListenerNamed, List.any_append]

/-- Characterization of listener presence by membership. -/
theorem hln_iff (l : List Attr) (n : String) :
    hasListenerNamed l n = true ↔
      ∃ a ∈ l, a.isListener = true ∧ a.name = n := by
  simp [hasListenerNamed, List.any_eq_true, Bool.and_eq_true]

/-- A list of plain attributes offers no listener. -/
theorem hln_of_all_plain (l : List Attr) (n : String)
    (h : ∀ a ∈ l, a.isPlain = true) : hasListenerNamed l n = false := by
  rw [Bool.eq_false_iff]
  intro hc
  obtain ⟨a, ha, hl, _⟩ := (hln_iff l n).1 hc
  have hp := h a ha
  rw [Attr.isPlain] at hp
  rw [Attr.isListener] at hl
  cases hv : a.value with
  | plain v => rw [hv] at hl; cases hl
  | listener cb => rw [hv] at hp; cases hp

/-- A filter that keeps every listener named `n` preserves listener
presence under `n`. -/
theorem hln_filter_keep (l : List Attr) (q : Attr → Bool) (n : String)
    (h : ∀ a ∈ l, a.isListener = true → a.name = n → q a = true) :
    hasListenerNamed (l.filter q) n = hasListenerNamed l n := by
  cases hl : hasListenerNamed l n with
  | true =>
    obtain ⟨a, ha, hal, han⟩ := (hln_iff l n).1 hl
    refine (hln_iff _ n).2 ⟨a, ?_, hal, han⟩
    exact List.mem_filter.2 ⟨ha, h a ha hal han⟩
  | false =>
    rw [Bool.eq_false_iff]
    intro hc
    obtain ⟨a, ha, hal, han⟩ := (hln_iff _ n).1 hc
    rw [Bool.eq_false_iff] at hl
    exact hl ((hln_iff l n).2 ⟨a, (List.mem_filter.1 ha).1, hal, han⟩)

/-- Membership in the differ's plain `to_add` set. -/
theorem attrsToAdd_mem_iff (a1 a2 : List Attr) (p : Attr) :
    p ∈ attrsToAdd a1 a2 ↔
      p ∈ a2 ∧ ∃ v, p.value = .plain v ∧ findPlainVal a1 p.name ≠ some v := by
  rw [attrsToAdd, List.mem_filter]
  cases hv : p.value with
  | plain v => simp [hv]
  | listener cb => simp [hv]

/-- Membership in the differ's plain `to_remove` name set. -/
theorem attrsToRemove_mem_iff (a1 a2 : List Attr) (n : String) :
    n ∈ attrsToRemove a1 a2 ↔
      ∃ b ∈ a1, b.name = n ∧ b.isPlain = true ∧
        findPlainVal a2 n = none := by
  rw [attrsToRemove]
  simp only [List.mem_map, List.mem_filter, Bool.and_eq_true]
  constructor
  · rintro ⟨b, ⟨hb, hbp, hbn⟩, rfl⟩
    exact ⟨b, hb, rfl, hbp, Option.isNone_iff_eq_none.1 hbn⟩
  · rintro ⟨b, hb, rfl, hbp, hnone⟩
    exact ⟨b, ⟨hb, hbp, Option.isNone_iff_eq_none.2 hnone⟩, rfl⟩

/-- Membership in the differ's listener add set. -/
theorem listenersToAdd_mem_iff (a1 a2 : List Attr) (p : Attr) :
    p ∈ listenersToAdd a1 a2 ↔
      p ∈ a2 ∧ p.isListener = true ∧ hasListenerNamed a1 p.name = false := by
  rw [listenersToAdd, List.mem_filter]
  simp [Bool.and_eq_true]

/-- Membership in the differ's listener remove name set. -/
theorem listenersToRemove_mem_iff (a1 a2 : List Attr) (n : String) :
    n ∈ listenersToRemove a1 a2 ↔
      ∃ b ∈ a1, b.name = n ∧ b.isListener = true ∧
        hasListenerNamed a2 n = false := by
  rw [listenersToRemove]
  simp only [List.mem_map, List.mem_filter, Bool.and_eq_true]
  constructor
  · rintro ⟨b, ⟨hb, hbl, hbn⟩, rfl⟩
    exact ⟨b, hb, rfl, hbl, by simpa using hbn⟩
  · rintro ⟨b, hb, rfl, hbl, hnone⟩
    exact ⟨b, ⟨hb, hbl, by simp [hnone]⟩, rfl⟩

/-- Every member of the plain `to_add` set is plain. -/
theorem attrsToAdd_all_plain (a1 a2 : List Attr) :
    ∀ p ∈ attrsToAdd a1 a2, p.isPlain = true := by
  intro p hp
  obtain ⟨_, v, hv, _⟩ := (attrsToAdd_mem_iff a1 a2 p).1 hp
  rw [Attr.isPlain, hv]

/-- Every member of the listener add set is a listener. -/
theorem listenersToAdd_all_listener (a1 a2 : List Attr) :
    ∀ p ∈ listenersToAdd a1 a2, p.isListener = true :=
  fun p hp => ((listenersToAdd_mem_iff a1 a2 p).1 hp).2.1

/-- When the attribute named `n` is unique in the list, the plain lookup
recovers its value. -/
theorem fpv_unique_mem (l : List Attr) (x : Attr) (n v : String)
    (hx : x ∈ l) (hn : x.name = n) (hv : x.value = .plain v)
    (huniq : ∀ p ∈ l, p.name = n → p = x) :
    findPlainVal l n = some v := by
  induction l with
  | nil => cases hx
  | cons a rest ih =>
    by_cases han : a.name = n
    · have hax : a = x := huniq a (List.mem_cons_self a rest) han
      subst hax
      simp only [findPlainVal, hv]
      rw [if_pos (beq_iff_eq.2 han)]
    · have hxr : x ∈ rest := by
        rcases List.mem_cons.1 hx with h | h
        · exact absurd (h ▸ hn) han
        · exact h
      have huniq' : ∀ p ∈ rest, p.name = n → p = x :=
        fun p hp hpn => huniq p (List.mem_cons_of_mem a hp) hpn
      cases hav : a.value with
      | plain w =>
        simp only [findPlainVal, hav]
        rw [if_neg (fun hc => han (eq_of_beq hc))]
        exact ih hxr huniq'
      | listener cb =>
        simp only [findPlainVal, hav]
        exact ih hxr huniq'

/-- Containment test of a string list matches list membership. -/
theorem contains_eq_false_iff (l : List String) (n : String) :
    l.contains n = false ↔ n ∉ l := by
  simp

/-- Appending listeners does not change any plain lookup. -/
theorem fpv_append_listeners (l m : List Attr)
    (hm : ∀ a ∈ m, a.isListener = true) (n : String) :
    findPlainVal (l ++ m) n = findPlainVal l n := by
  cases hfv : findPlainVal l n with
  | some v => exact fpv_append_some l m n v hfv
  | none => rw [fpv_append_none l m n hfv]; exact fpv_of_all_listener m n hm

/-- Applying the differ's four attribute patches to the old collection
reproduces the new collection's plain lookups, at every name (the new
collection carries unique attribute names, the data model's merge
invariant). -/
theorem updateAttrs_fpv (a1 a2 : List Attr)
    (h2 : (a2.map (fun a => a.name)).Nodup) (n : String) :
    findPlainVal (updateAttrs a1 a2) n = findPlainVal a2 n := by
  rw [updateAttrs]
  simp only [applyAttrPatch]
  rw [fpv_filter_keep _
    (fun b => !(b.isListener && (listenersToRemove a1 a2).contains b.name)) n
    (fun a _ v hv _ => by simp [Attr.isListener, hv])]
  rw [fpv_append_listeners _ _ (listenersToAdd_all_listener a1 a2) n]
  rw [fpv_filter_keep _
    (fun b => !(b.isListener &&
      (listenersToAdd a1 a2).any (fun a => a.name == b.name))) n
    (fun a _ v hv _ => by simp [Attr.isListener, hv])]
  cases hfp2 : findPlainVal a2 n with
  | some v =>
    have htr : (attrsToRemove a1 a2).contains n = false := by
      rw [contains_eq_false_iff]
      intro hc
      obtain ⟨b, hb, hbn, hbp, hnone⟩ := (attrsToRemove_mem_iff a1 a2 n).1 hc
      rw [hnone] at hfp2
      cases hfp2
    rw [fpv_filter_keep _
      (fun b => !(b.isPlain && (attrsToRemove a1 a2).contains b.name)) n
      (fun a _ v' hv' hn => by
        simp only [Attr.isPlain, hv', hn, htr, Bool.and_false, Bool.not_false])]
    by_cases hcmp : findPlainVal a1 n = some v
    · have hta_none : ∀ p ∈ attrsToAdd a1 a2, p.name ≠ n := by
        intro p hp hpn
        obtain ⟨hpa2, w, hw, hne⟩ := (attrsToAdd_mem_iff a1 a2 p).1 hp
        have hval := fpv_self a2 h2 p hpa2 w hw
        rw [hpn, hfp2] at hval
        injection hval with hvw
        subst hvw
        exact hne (by rw [hpn]; exact hcmp)
      have hanyta : ∀ b : Attr, b.name = n →
          (attrsToAdd a1 a2).any (fun a => a.name == b.name) = false := by
        intro b hbn
        rw [Bool.eq_false_iff]
        intro hc
        obtain ⟨p, hp, hpn⟩ := List.any_eq_true.1 hc
        exact hta_none p hp (by rw [eq_of_beq hpn, hbn])
      have h1keep : findPlainVal (a1.filter (fun b =>
          !(b.isPlain &&
            (attrsToAdd a1 a2).any (fun a => a.name == b.name)))) n =
          findPlainVal a1 n :=
        fpv_filter_keep _ _ n (fun a _ v' hv' hn => by simp [hanyta a hn])
      exact fpv_append_some _ _ n v (by rw [h1keep]; exact hcmp)
    · obtain ⟨x, hx, hxn, hxv⟩ := fpv_mem_of_some a2 n v hfp2
      have hxta : x ∈ attrsToAdd a1 a2 :=
        (attrsToAdd_mem_iff a1 a2 x).2 ⟨hx, v, hxv, by rw [hxn]; exact hcmp⟩
      have hanyta : ∀ b : Attr, b.name = n →
          (attrsToAdd a1 a2).any (fun a => a.name == b.name) = true :=
        fun b hbn => List.any_eq_true.2 ⟨x, hxta, by simp [hxn, hbn]⟩
      have h1drop : findPlainVal (a1.filter (fun b =>
          !(b.isPlain &&
            (attrsToAdd a1 a2).any (fun a => a.name == b.name)))) n = none :=
        fpv_filter_drop _ _ n
          (fun a _ v' hv' hn => by simp [Attr.isPlain, hv', hanyta a hn])
      rw [fpv_append_none _ _ n h1drop]
      refine fpv_unique_mem _ x n v hxta hxn hxv ?_
      intro p hp hpn
      obtain ⟨hpa2, w, hw, hne⟩ := (attrsToAdd_mem_iff a1 a2 p).1 hp
      exact List.inj_on_of_nodup_map h2 hpa2 hx (by rw [hpn, hxn])
  | none =>
    refine fpv_filter_drop _ _ n ?_
    intro a ha v hv hn
    have ha1 : a ∈ a1 := by
      rcases List.mem_append.1 ha with h | h
      · exact (List.mem_filter.1 h).1
      · obtain ⟨hpa2, w, hw, hne⟩ := (attrsToAdd_mem_iff a1 a2 a).1 h
        have hsome := fpv_isSome_of_mem a2 a w hpa2 hw
        rw [hn, hfp2] at hsome
        simp at hsome
    have htr : n ∈ attrsToRemove a1 a2 :=
      (attrsToRemove_mem_iff a1 a2 n).2
        ⟨a, ha1, hn, by rw [Attr.isPlain, hv], hfp2⟩
    simp [Attr.isPlain, hv, hn, htr]

/-- A listener attribute is not plain. -/
theorem isPlain_eq_false_of_isListener (a : Attr)
    (h : a.isListener = true) : a.isPlain = false := by
  rw [Attr.isListener] at h
  rw [Attr.isPlain]
  cases hv : a.value with
  | plain v => rw [hv] at h; cases h
  | listener cb => rfl

/-- Applying the differ's four attribute patches to the old collection
reproduces the new collection's listener presence, at every name. -/
theorem updateAttrs_hln (a1 a2 : List Attr) (n : String) :
    hasListenerNamed (updateAttrs a1 a2) n = hasListenerNamed a2 n := by
  rw [updateAttrs]
  simp only [applyAttrPatch]
  have h21 : hasListenerNamed
      ((a1.filter (fun b => !(b.isPlain &&
          (attrsToAdd a1 a2).any (fun a => a.name == b.name))) ++
        attrsToAdd a1 a2).filter
        (fun b => !(b.isPlain && (attrsToRemove a1 a2).contains b.name))) n =
      hasListenerNamed a1 n := by
    rw [hln_filter_keep _
      (fun b => !(b.isPlain && (attrsToRemove a1 a2).contains b.name)) n
      (fun a _ hl _ => by simp [isPlain_eq_false_of_isListener a hl])]
    rw [hln_append]
    rw [hln_of_all_plain _ n (attrsToAdd_all_plain a1 a2), Bool.or_false]
    rw [hln_filter_keep _
      (fun b => !(b.isPlain &&
        (attrsToAdd a1 a2).any (fun a => a.name == b.name))) n
      (fun a _ hl _ => by simp [isPlain_eq_false_of_isListener a hl])]
  cases hl2 : hasListenerNamed a2 n with
  | true =>
    have hlrn : (listenersToRemove a1 a2).contains n = false := by
      rw [contains_eq_false_iff]
      intro hc
      obtain ⟨b, hb, hbn, hbl, hfalse⟩ :=
        (listenersToRemove_mem_iff a1 a2 n).1 hc
      rw [hl2] at hfalse
      cases hfalse
    rw [hln_filter_keep _
      (fun b => !(b.isListener && (listenersToRemove a1 a2).contains b.name)) n
      (fun a _ hl hn => by
        simp only [hn, hlrn, Bool.and_false, Bool.not_false])]
    rw [hln_append]
    cases hl1 : hasListenerNamed a1 n with
    | true =>
      have hlaN : ∀ p ∈ listenersToAdd a1 a2, p.name ≠ n := by
        intro p hp hpn
        obtain ⟨hpa2, hpl, hpf⟩ := (listenersToAdd_mem_iff a1 a2 p).1 hp
        rw [hpn, hl1] at hpf
        cases hpf
      have hany : ∀ b : Attr, b.name = n →
          (listenersToAdd a1 a2).any (fun a => a.name == b.name) = false := by
        intro b hbn
        rw [Bool.eq_false_iff]
        intro hc
        obtain ⟨p, hp, hpn⟩ := List.any_eq_true.1 hc
        exact hlaN p hp (by rw [eq_of_beq hpn, hbn])
      rw [hln_filter_keep _
        (fun b => !(b.isListener &&
          (listenersToAdd a1 a2).any (fun a => a.name == b.name))) n
        (fun a _ hl hn => by simp [hany a hn])]
      rw [h21, hl1]
      simp
    | false =>
      obtain ⟨x, hx, hxl, hxn⟩ := (hln_iff a2 n).1 hl2
      have hxla : x ∈ listenersToAdd a1 a2 :=
        (listenersToAdd_mem_iff a1 a2 x).2 ⟨hx, hxl, by rw [hxn]; exact hl1⟩
      have hla : hasListenerNamed (listenersToAdd a1 a2) n = true :=
        (hln_iff _ n).2 ⟨x, hxla, hxl, hxn⟩
      rw [hla, Bool.or_true]
  | false =>
    rw [Bool.eq_false_iff]
    intro hc
    obtain ⟨y, hy, hyl, hyn⟩ := (hln_iff _ n).1 hc
    have hy4 := List.mem_filter.1 hy
    rcases List.mem_append.1 hy4.1 with hy3 | hyla
    · have hy1 : y ∈ a1 := by
        have hy2 : y ∈ (a1.filter (fun b => !(b.isPlain &&
            (attrsToAdd a1 a2).any (fun a => a.name == b.name))) ++
              attrsToAdd a1 a2) :=
          (List.mem_filter.1 (List.mem_filter.1 hy3).1).1
        rcases List.mem_append.1 hy2 with h | h
        · exact (List.mem_filter.1 h).1
        · have hp := attrsToAdd_all_plain a1 a2 y h
          rw [isPlain_eq_false_of_isListener y hyl] at hp
          cases hp
      have hlr : n ∈ listenersToRemove a1 a2 :=
        (listenersToRemove_mem_iff a1 a2 n).2 ⟨y, hy1, hyn, hyl, hl2⟩
      have hq4 := hy4.2
      simp [hyl, hyn, hlr] at hq4
    · obtain ⟨hya2, _, _⟩ := (listenersToAdd_mem_iff a1 a2 y).1 hyla
      have := (hln_iff a2 n).2 ⟨y, hya2, hyl, hyn⟩
      rw [hl2] at this
      cases this

/-- Pointwise equal lookups give observable attribute equality. -/
theorem attrsObservEq_of_pointwise (x y : List Attr)
    (h1 : ∀ n, findPlainVal x n = findPlainVal y n)
    (h2 : ∀ n, hasListenerNamed x n = hasListenerNamed y n) :
    attrsObservEq x y = true := by
  rw [attrsObservEq]
  refine List.all_eq_true.2 ?_
  intro a _
  rw [h1 a.name, h2 a.name]
  simp

/-- Observable attribute equality is reflexive. -/
theorem attrsObservEq_refl (x : List Attr) : attrsObservEq x x = true :=
  attrsObservEq_of_pointwise x x (fun _ => rfl) (fun _ => rfl)

/-- Observable tree equality is reflexive (size-fuelled induction). -/
theorem observEq_refl_aux : ∀ (fuel : Nat) (T : Node), size T ≤ fuel →
    observEq T T = true := by
  intro fuel
  induction fuel with
  | zero => intro T hs; exact absurd hs (by have := size_pos T; omega)
  | succ m ih =>
    intro T hs
    match T with
    | .text s => rw [observEq]; simp
    | .element t a cs =>
      have hsz : sizeList cs ≤ m := by rw [size] at hs; omega
      have hlist : ∀ (ds : List Node), (∀ c ∈ ds, size c ≤ m) →
          observEqList ds ds = true := by
        intro ds
        induction ds with
        | nil => intro _; rw [observEqList]
        | cons d rest ihd =>
          intro hmem
          rw [observEqList, ih d (hmem d (List.mem_cons_self d rest)),
            ihd (fun c hc => hmem c (List.mem_cons_of_mem d hc))]
          rfl
      rw [observEq, attrsObservEq_refl,
        hlist cs (fun c hc => le_trans (size_le_sizeList cs c hc) hsz)]
      simp

/-- Observable tree equality is reflexive. -/
theorem observEq_refl (T : Node) : observEq T T = true :=
  observEq_refl_aux (size T) T le_rfl

/-- Observable forest equality is reflexive. -/
theorem observEqList_refl (cs : List Node) : observEqList cs cs = true := by
  induction cs with
  | nil => rw [observEqList]
  | cons c rest ih =>
    rw [observEqList, observEq_refl c, ih]
    rfl

/-- Observable forest equality is compatible with concatenation. -/
theorem observEqList_append : ∀ (l1 l2 l3 l4 : List Node),
    observEqList l1 l2 = true → observEqList l3 l4 = true →
    observEqList (l1 ++ l3) (l2 ++ l4) = true := by
  intro l1
  induction l1 with
  | nil =>
    intro l2 l3 l4 h12 h34
    match l2 with
    | [] => simpa using h34
    | y :: ys =>
      have hfalse : observEqList [] (y :: ys) = false := rfl
      rw [hfalse] at h12
      cases h12
  | cons x xs ih =>
    intro l2 l3 l4 h12 h34
    match l2 with
    | [] =>
      have hfalse : observEqList (x :: xs) [] = false := rfl
      rw [hfalse] at h12
      cases h12
    | y :: ys =>
      rw [observEqList, Bool.and_eq_true] at h12
      rw [List.cons_append, List.cons_append, observEqList, h12.1,
        ih ys l3 l4 h12.2 h34]
      rfl

/-- The applier's child visit preserves the child count. -/
theorem applyChildren_length (ps : List Patch) : ∀ (cs : List Node) (k : Nat),
    (applyChildren ps cs k).length = cs.length := by
  intro cs
  induction cs with
  | nil => intro k; rw [applyChildren]
  | cons c rest ih => intro k; rw [applyChildren, List.length_cons,
      List.length_cons, ih (k + size c)]

/-- A fold of patches none of which touches child lists is the identity. -/
theorem foldl_struct_id (l : List Patch)
    (h : ∀ p ∈ l, ∀ cs : List Node, applyStructPatch cs p = cs) :
    ∀ cs : List Node, l.foldl applyStructPatch cs = cs := by
  induction l with
  | nil => intro cs; rfl
  | cons p rest ih =>
    intro cs
    rw [List.foldl_cons, h p (List.mem_cons_self p rest) cs,
      ih (fun q hq => h q (List.mem_cons_of_mem p hq)) cs]

/-- A fold of patches none of which touches attributes is the identity. -/
theorem foldl_attr_id (l : List Patch)
    (h : ∀ p ∈ l, ∀ x : List Attr, applyAttrPatch x p = x) :
    ∀ x : List Attr, l.foldl applyAttrPatch x = x := by
  induction l with
  | nil => intro x; rfl
  | cons p rest ih =>
    intro x
    rw [List.foldl_cons, h p (List.mem_cons_self p rest) x,
      ih (fun q hq => h q (List.mem_cons_of_mem p hq)) x]

/-- Adding no plain attributes changes nothing. -/
theorem applyAttrPatch_add_nil (x : List Attr) (t : String) (i : Nat) :
    applyAttrPatch x (.addAttributes t i []) = x := by
  simp [applyAttrPatch]

/-- Removing no plain attributes changes nothing. -/
theorem applyAttrPatch_remove_nil (x : List Attr) (t : String) (i : Nat) :
    applyAttrPatch x (.removeAttributes t i []) = x := by
  simp [applyAttrPatch]

/-- Adding no listeners changes nothing. -/
theorem applyAttrPatch_addL_nil (x : List Attr) (t : String) (i : Nat) :
    applyAttrPatch x (.addEventListener t i []) = x := by
  simp [applyAttrPatch]

/-- Removing no listeners changes nothing. -/
theorem applyAttrPatch_removeL_nil (x : List Attr) (t : String) (i : Nat) :
    applyAttrPatch x (.removeEventListener t i []) = x := by
  simp [applyAttrPatch]

/-- Folding the optional `AddAttributes` patch equals applying it
unconditionally. -/
theorem foldl_attr_opt_add (x : List Attr) (l : List Attr) (t : String)
    (i : Nat) :
    List.foldl applyAttrPatch x
      (if l.isEmpty then ([] : List Patch) else [Patch.addAttributes t i l]) =
      applyAttrPatch x (.addAttributes t i l) := by
  by_cases hl : l.isEmpty = true
  · rw [if_pos hl, List.isEmpty_iff.1 hl, List.foldl_nil,
      applyAttrPatch_add_nil]
  · rw [if_neg hl, List.foldl_cons, List.foldl_nil]

/-- Folding the optional `RemoveAttributes` patch equals applying it
unconditionally. -/
theorem foldl_attr_opt_remove (x : List Attr) (l : List String) (t : String)
    (i : Nat) :
    List.foldl applyAttrPatch x
      (if l.isEmpty then ([] : List Patch)
       else [Patch.removeAttributes t i l]) =
      applyAttrPatch x (.removeAttributes t i l) := by
  by_cases hl : l.isEmpty = true
  · rw [if_pos hl, List.isEmpty_iff.1 hl, List.foldl_nil,
      applyAttrPatch_remove_nil]
  · rw [if_neg hl, List.foldl_cons, List.foldl_nil]

/-- Folding the optional `AddEventListener` patch equals applying it
unconditionally. -/
theorem foldl_attr_opt_addL (x : List Attr) (l : List Attr) (t : String)
    (i : Nat) :
    List.foldl applyAttrPatch x
      (if l.isEmpty then ([] : List Patch)
       else [Patch.addEventListener t i l]) =
      applyAttrPatch x (.addEventListener t i l) := by
  by_cases hl : l.isEmpty = true
  · rw [if_pos hl, List.isEmpty_iff.1 hl, List.foldl_nil,
      applyAttrPatch_addL_nil]
  · rw [if_neg hl, List.foldl_cons, List.foldl_nil]

/-- Folding the optional `RemoveEventListener` patch equals applying it
unconditionally. -/
theorem foldl_attr_opt_removeL (x : List Attr) (l : List String) (t : String)
    (i : Nat) :
    List.foldl applyAttrPatch x
      (if l.isEmpty then ([] : List Patch)
       else [Patch.removeEventListener t i l]) =
      applyAttrPatch x (.removeEventListener t i l) := by
  by_cases hl : l.isEmpty = true
  · rw [if_pos hl, List.isEmpty_iff.1 hl, List.foldl_nil,
      applyAttrPatch_removeL_nil]
  · rw [if_neg hl, List.foldl_cons, List.foldl_nil]

/-- Folding the emitted attribute patches over the old collection computes
`updateAttrs`. -/
theorem foldl_attr_attrPatches (tag : String) (a1 a2 : List Attr) (idx : Nat) :
    (attrPatches tag a1 a2 idx).foldl applyAttrPatch a1 = updateAttrs a1 a2 := by
  rw [attrPatches, updateAttrs]
  rw [List.foldl_append, List.foldl_append, List.foldl_append]
  rw [foldl_attr_opt_add, foldl_attr_opt_remove, foldl_attr_opt_addL,
    foldl_attr_opt_removeL]
  rfl

/-- Folding the emitted children-count patch computes the append or
truncation it encodes. -/
theorem foldl_struct_structPatch (tag : String) (c1 c2 : List Node) (idx : Nat)
    (children : List Node) :
    (structPatch tag c1 c2 idx).foldl applyStructPatch children =
      (if c1.length < c2.length then children ++ c2.drop c1.length
       else if c2.length < c1.length then children.take c2.length
       else children) := by
  rw [structPatch]
  by_cases h1 : c1.length < c2.length
  · rw [if_pos h1, if_pos h1, List.foldl_cons, List.foldl_nil]
    rfl
  · rw [if_neg h1, if_neg h1]
    by_cases h2 : c2.length < c1.length
    · rw [if_pos h2, if_pos h2, List.foldl_cons, List.foldl_nil]
      rfl
    · rw [if_neg h2, if_neg h2, List.foldl_nil]

/-- A list with no `Replace` patch yields no replacement. -/
theorem findReplacement_eq_none (l : List Patch)
    (h : ∀ p ∈ l, replacePayload p = none) :
    findReplacement l = none := by
  rw [findReplacement, List.findSome?_eq_none_iff]
  exact h

/-- At its own index a same-tag element diff contributes exactly the
attribute patches followed by the children-count patch. -/
theorem psAt_diffAt_element (t : String) (a1 : List Attr) (c1 : List Node)
    (a2 : List Attr) (c2 : List Node) (idx : Nat) :
    psAt (diffAt (.element t a1 c1) (.element t a2 c2) idx) idx =
      attrPatches t a1 a2 idx ++ structPatch t c1 c2 idx := by
  rw [diffAt, if_pos (beq_self_eq_true t)]
  rw [psAt_append, psAt_append]
  rw [psAt_eq_self (attrPatches t a1 a2 idx) idx
    (fun p hp => (attrPatches_mem t a1 a2 idx p hp).1)]
  rw [psAt_eq_self (structPatch t c1 c2 idx) idx
    (fun p hp => (structPatch_mem t c1 c2 idx p hp).1)]
  rw [psAt_eq_nil (diffChildren c1 c2 (idx + 1)) idx (fun p hp => by
    have := diffChildren_bounds_of c1
      (fun d _ nn i q hq => diffAt_bounds d nn i q hq) c2 (idx + 1) p hp
    omega)]
  rw [List.append_nil]

/-- Away from its own index a same-tag element diff contributes exactly its
children's patches. -/
theorem psAt_diffAt_element_child (t : String) (a1 : List Attr)
    (c1 : List Node) (a2 : List Attr) (c2 : List Node) (idx j : Nat)
    (hj : j ≠ idx) :
    psAt (diffAt (.element t a1 c1) (.element t a2 c2) idx) j =
      psAt (diffChildren c1 c2 (idx + 1)) j := by
  rw [diffAt, if_pos (beq_self_eq_true t)]
  rw [psAt_append, psAt_append]
  rw [psAt_eq_nil (attrPatches t a1 a2 idx) j (fun p hp => by
    rw [(attrPatches_mem t a1 a2 idx p hp).1]
    omega)]
  rw [psAt_eq_nil (structPatch t c1 c2 idx) j (fun p hp => by
    rw [(structPatch_mem t c1 c2 idx p hp).1]
    omega)]
  rw [List.nil_append, List.append_nil]

/-- Visiting the shared child region with the patches of `diffChildren`
reproduces the new children observably, position by position (induction over
the sibling lists; the head case delegates to the given per-child
round-trip property). -/
theorem applyChildren_roundtrip : ∀ (os ns : List Node) (k : Nat)
    (ps : List Patch),
    (∀ o ∈ os, ∀ (nn : Node) (i : Nat) (ps' : List Patch),
      wf o = true → wf nn = true →
      (∀ j, i ≤ j → j < i + size o → psAt ps' j = psAt (diffAt o nn i) j) →
      observEq (applyAt ps' o i) nn = true) →
    wfList os = true → wfList ns = true →
    (∀ j, k ≤ j → j < k + sizeList os →
      psAt ps j = psAt (diffChildren os ns k) j) →
    observEqList ((applyChildren ps os k).take ns.length)
      (ns.take os.length) = true := by
  intro os
  induction os with
  | nil =>
    intro ns k ps IH hwo hwn Hc
    rw [applyChildren, List.take_nil, List.length_nil, List.take_zero,
      observEqList]
  | cons o os' ih =>
    intro ns k ps IH hwo hwn Hc
    match ns with
    | [] =>
      rw [List.length_nil, List.take_zero, List.take_nil, observEqList]
    | n :: ns' =>
      rw [applyChildren]
      rw [wfList, Bool.and_eq_true] at hwo hwn
      rw [List.length_cons, List.length_cons, List.take_succ_cons,
        List.take_succ_cons, observEqList]
      have hHead : observEq (applyAt ps o k) n = true := by
        refine IH o (List.mem_cons_self o os') n k ps hwo.1 hwn.1 ?_
        intro j hj1 hj2
        rw [Hc j hj1 (by rw [sizeList]; omega)]
        rw [diffChildren, psAt_append]
        rw [psAt_eq_nil (diffChildren os' ns' (k + size o)) j (fun p hp => by
          have := diffChildren_bounds_of os'
            (fun d _ nn i q hq => diffAt_bounds d nn i q hq)
            ns' (k + size o) p hp
          omega)]
        rw [List.append_nil]
      have hTail : observEqList
          ((applyChildren ps os' (k + size o)).take ns'.length)
          (ns'.take os'.length) = true := by
        refine ih ns' (k + size o) ps
          (fun d hd => IH d (List.mem_cons_of_mem o hd)) hwo.2 hwn.2 ?_
        intro j hj1 hj2
        rw [Hc j (by omega) (by rw [sizeList]; omega)]
        rw [diffChildren, psAt_append]
        rw [psAt_eq_nil (diffAt o n k) j (fun p hp => by
          have := diffAt_bounds o n k p hp
          omega)]
        rw [List.nil_append]
      rw [hHead, hTail]
      rfl

/-- Round-trip at every index, for any patch list that agrees with the diff
on the old subtree's index interval (size-fuelled induction). -/
theorem applyAt_diffAt_aux : ∀ (fuel : Nat) (old : Node), size old ≤ fuel →
    ∀ (nn : Node) (idx : Nat) (ps : List Patch), wf old = true →
    wf nn = true →
    (∀ j, idx ≤ j → j < idx + size old →
      psAt ps j = psAt (diffAt old nn idx) j) →
    observEq (applyAt ps old idx) nn = true := by
  intro fuel
  induction fuel with
  | zero => intro old hs; exact absurd hs (by have := size_pos old; omega)
  | succ m ih =>
    intro old hs nn idx ps hwo hwn H
    have hmine := H idx (le_refl idx) (by have := size_pos old; omega)
    match old, nn with
    | .text s, .text t =>
      by_cases hst : (s == t) = true
      · have hd : diffAt (Node.text s) (Node.text t) idx = [] := by
          rw [diffAt, if_pos hst]
        rw [hd] at hmine
        rw [applyAt, hmine]
        simp [psAt, findReplacement, replacePayload, findNewText, observEq, hst]
      · have hd : diffAt (Node.text s) (Node.text t) idx =
            [Patch.changeText idx t] := by
          rw [diffAt, if_neg hst]
        rw [hd] at hmine
        rw [psAt_eq_self [Patch.changeText idx t] idx (fun p hp => by
          rw [List.mem_singleton] at hp
          subst hp
          rfl)] at hmine
        rw [applyAt, hmine]
        simp [findReplacement, replacePayload, findNewText, observEq,
          List.findSome?_cons, List.findSome?_nil]
    | .text s, .element t2 a2 c2 =>
      have hd : diffAt (Node.text s) (Node.element t2 a2 c2) idx =
          [Patch.replace (rootTag (Node.text s)) idx
            (Node.element t2 a2 c2)] := rfl
      rw [hd] at hmine
      rw [psAt_eq_self
        [Patch.replace (rootTag (Node.text s)) idx (Node.element t2 a2 c2)]
        idx (fun p hp => by
          rw [List.mem_singleton] at hp
          subst hp
          rfl)] at hmine
      rw [applyAt, hmine]
      exact observEq_refl (Node.element t2 a2 c2)
    | .element t1 a1 c1, .text t =>
      have hd : diffAt (Node.element t1 a1 c1) (Node.text t) idx =
          [Patch.replace (rootTag (Node.element t1 a1 c1)) idx
            (Node.text t)] := rfl
      rw [hd] at hmine
      rw [psAt_eq_self
        [Patch.replace (rootTag (Node.element t1 a1 c1)) idx (Node.text t)]
        idx (fun p hp => by
          rw [List.mem_singleton] at hp
          subst hp
          rfl)] at hmine
      rw [applyAt, hmine]
      exact observEq_refl (Node.text t)
    | .element t1 a1 c1, .element t2 a2 c2 =>
      by_cases htag : (t1 == t2) = true
      · have ht := eq_of_beq htag
        subst ht
        rw [wf, Bool.and_eq_true] at hwo hwn
        rw [psAt_diffAt_element t1 a1 c1 a2 c2 idx] at hmine
        rw [applyAt, hmine]
        rw [findReplacement_eq_none _ (fun p hp => by
          rcases List.mem_append.1 hp with h | h
          · exact (attrPatches_mem t1 a1 a2 idx p h).2.2
          · exact (structPatch_mem t1 c1 c2 idx p h).2.2)]
        show observEq
          (Node.element t1
            (List.foldl applyAttrPatch a1
              (attrPatches t1 a1 a2 idx ++ structPatch t1 c1 c2 idx))
            (List.foldl applyStructPatch
              (applyChildren ps c1 (idx + 1))
              (attrPatches t1 a1 a2 idx ++ structPatch t1 c1 c2 idx)))
          (Node.element t1 a2 c2) = true
        have hnd2 : (a2.map (fun a => a.name)).Nodup :=
          (nodupBool_iff _).1 hwn.1
        have hattrs : List.foldl applyAttrPatch a1
            (attrPatches t1 a1 a2 idx ++ structPatch t1 c1 c2 idx) =
            updateAttrs a1 a2 := by
          rw [List.foldl_append, foldl_attr_attrPatches]
          exact foldl_attr_id _
            (fun p hp => (structPatch_mem t1 c1 c2 idx p hp).2.1) _
        have hae : attrsObservEq (List.foldl applyAttrPatch a1
            (attrPatches t1 a1 a2 idx ++ structPatch t1 c1 c2 idx)) a2 =
            true := by
          rw [hattrs]
          exact attrsObservEq_of_pointwise _ _
            (fun n => updateAttrs_fpv a1 a2 hnd2 n)
            (fun n => updateAttrs_hln a1 a2 n)
        have hlen : (applyChildren ps c1 (idx + 1)).length = c1.length :=
          applyChildren_length ps c1 (idx + 1)
        have hcr : observEqList
            ((applyChildren ps c1 (idx + 1)).take c2.length)
            (c2.take c1.length) = true := by
          refine applyChildren_roundtrip c1 c2 (idx + 1) ps ?_ hwo.2 hwn.2 ?_
          · intro o ho nn2 i ps2 hw1 hw2 Hp
            refine ih o ?_ nn2 i ps2 hw1 hw2 Hp
            have h1 := size_le_sizeList c1 o ho
            rw [size] at hs
            omega
          · intro j hj1 hj2
            rw [H j (by omega) (by rw [size]; omega)]
            exact psAt_diffAt_element_child t1 a1 c1 a2 c2 idx j (by omega)
        have hsf : List.foldl applyStructPatch
            (applyChildren ps c1 (idx + 1))
            (attrPatches t1 a1 a2 idx ++ structPatch t1 c1 c2 idx) =
            (if c1.length < c2.length then
              applyChildren ps c1 (idx + 1) ++ c2.drop c1.length
            else if c2.length < c1.length then
              (applyChildren ps c1 (idx + 1)).take c2.length
            else applyChildren ps c1 (idx + 1)) := by
          rw [List.foldl_append]
          rw [foldl_struct_id (attrPatches t1 a1 a2 idx)
            (fun p hp => (attrPatches_mem t1 a1 a2 idx p hp).2.1)
            (applyChildren ps c1 (idx + 1))]
          exact foldl_struct_structPatch t1 c1 c2 idx _
        have hch : observEqList (List.foldl applyStructPatch
            (applyChildren ps c1 (idx + 1))
            (attrPatches t1 a1 a2 idx ++ structPatch t1 c1 c2 idx)) c2 =
            true := by
          rw [hsf]
          rcases Nat.lt_trichotomy c1.length c2.length with hlt | heq | hgt
          · rw [if_pos hlt]
            have h1 : (applyChildren ps c1 (idx + 1)).take c2.length =
                applyChildren ps c1 (idx + 1) :=
              List.take_of_length_le (by omega)
            rw [h1] at hcr
            have happ := observEqList_append _ _ _ _ hcr
              (observEqList_refl (c2.drop c1.length))
            rw [List.take_append_drop] at happ
            exact happ
          · rw [if_neg (by omega), if_neg (by omega)]
            have h1 : (applyChildren ps c1 (idx + 1)).take c2.length =
                applyChildren ps c1 (idx + 1) :=
              List.take_of_length_le (by omega)
            have h2 : c2.take c1.length = c2 :=
              List.take_of_length_le (by omega)
            rw [h1, h2] at hcr
            exact hcr
          · rw [if_neg (by omega), if_pos hgt]
            have h2 : c2.take c1.length = c2 :=
              List.take_of_length_le (by omega)
            rw [h2] at hcr
            exact hcr
        rw [observEq, Bool.and_eq_true, Bool.and_eq_true]
        exact ⟨⟨beq_self_eq_true t1, hae⟩, hch⟩
      · have hd : diffAt (Node.element t1 a1 c1) (Node.element t2 a2 c2)
            idx = [Patch.replace t1 idx (Node.element t2 a2 c2)] := by
          rw [diffAt, if_neg htag]
        rw [hd] at hmine
        rw [psAt_eq_self
          [Patch.replace t1 idx (Node.element t2 a2 c2)] idx (fun p hp => by
            rw [List.mem_singleton] at hp
            subst hp
            rfl)] at hmine
        rw [applyAt, hmine]
        exact observEq_refl (Node.element t2 a2 c2)

/-- C5: for any two well-formed trees `A` and `B` (unique attribute names
within each node, the data model's merge invariant), applying the patch
sequence `diff(A, B)` in order to a live tree currently shaped like `A`
produces a live tree observably equal to `B`: same tags, plain attribute
values, listener presence, text and child counts, recursively. -/
theorem diff_apply_roundtrip :
    ∀ A B : Node, wf A = true → wf B = true →
      observEq (applyPatches (diff A B) A) B = true := by
  intro A B hA hB
  rw [applyPatches, diff]
  exact applyAt_diffAt_aux (size A) A le_rfl B 0 (diffAt A B 0) hA hB
    (fun j _ _ => rfl)

/-- C5 (witness): the round-trip theorem applied to two concrete well-formed
trees exercising an attribute change, a listener change, a text change and a
child-count change. -/
theorem diff_apply_roundtrip_witness :
    observEq (applyPatches (diff sampleTree sampleTreeB) sampleTree)
      sampleTreeB = true :=
  diff_apply_roundtrip sampleTree sampleTreeB (by decide) (by decide)
